import Mathlib

/-!
# Verification of the pachyderm shard control plane (`src/pkg/shard/sharder.go`)

A shallow embedding of the role-assignment state machine of the sharder:
the role records, the assigner's master/replica/swap assignment passes,
the garbage-collection gate, the addresses-snapshot construction, the
server role follower's version window, and the frontend version follower.

Go maps are embedded as association lists (`List (key × value)`); Go map
iteration in the assignment passes is embedded as iteration over the list
in order (the assignment loops are order-insensitive for the invariants
proved here, and the spec permits any deterministic order).  Mutable
`uint64` counters become explicit state; `math.MaxUint64` becomes
`2 ^ 64 - 1`.  Functions that return `bool` after conditionally mutating
state become `Option`-valued state transformers (`none` = returned
`false` without mutating, exactly as in the source, where every `false`
return precedes the first mutation).
-/

set_option maxHeartbeats 1000000

namespace PachydermShard

/-!  ## Definitions: the embedded data model and operations -/

/-- `proto.ServerRole`: one role record, as published by the assigner.
`masters` and `replicas` embed the Go `map[uint64]bool` shard sets. -/
structure ServerRole where
  id : String
  version : Int
  masters : List Nat
  replicas : List Nat
deriving DecidableEq

/-- `proto.ServerState`: one heartbeat record of a live server. -/
structure ServerState where
  id : String
  address : String
  version : Int
  shards : List Nat
deriving DecidableEq

/-- The Go `map[string]*proto.ServerRole` of roles being built. -/
abbrev Roles := List (String × ServerRole)

/-- Go map read `serverRoles[id]`. -/
def lookupRole (serverRoles : Roles) (id : String) : Option ServerRole :=
  (serverRoles.find? (fun p => p.1 = id)).map (fun p => p.2)

/-- Go map write `serverRoles[id] = serverRole` (the key is always present
when this is called in the source). -/
def setRole (serverRoles : Roles) (id : String) (serverRole : ServerRole) : Roles :=
  serverRoles.map (fun p => if p.1 = id then (id, serverRole) else p)

/-- Go set-map write `m[x] = true` on a `map[uint64]bool`. -/
def setInsert (l : List Nat) (x : Nat) : List Nat :=
  if x ∈ l then l else l ++ [x]

/-- Go set-map write `m[x] = true` on a `map[string]bool`. -/
def setInsertStr (l : List String) (x : String) : List String :=
  if x ∈ l then l else l ++ [x]

/-- `hasShard` (sharder.go:677): the server role already owns the shard in
either capacity. -/
def hasShard (serverRole : ServerRole) (shard : Nat) : Bool :=
  decide (shard ∈ serverRole.masters) || decide (shard ∈ serverRole.replicas)

/-- `removeReplica` (sharder.go:681): drop `id` from the replica-holder list
of `shard` in the `map[uint64][]string` tracking map. -/
def removeReplica (replicas : Nat → List String) (shard : Nat) (id : String) :
    Nat → List String :=
  fun s => if s = shard then (replicas shard).filter (fun x => x ≠ id) else replicas s

/-- `assignMaster` (sharder.go:691).  Succeeds iff `id` is a key of the roles
map, holds at most the quota of masters (with remainder budget when exactly at
quota), and does not already own the shard; on success the shard is added to
its masters, the shard→master tracking map is updated, and a remainder unit is
consumed when the server was exactly at quota. -/
def assignMaster (serverRoles : Roles) (masters : Nat → Option String) (id : String)
    (shard : Nat) (masterRolesPerServer : Nat) (masterRolesRemainder : Nat) :
    Option (Roles × (Nat → Option String) × Nat) :=
  match lookupRole serverRoles id with
  | none => none
  | some serverRole =>
    if masterRolesPerServer < serverRole.masters.length then none
    else if serverRole.masters.length = masterRolesPerServer ∧ masterRolesRemainder = 0 then
      none
    else if hasShard serverRole shard then none
    else
      let masterRolesRemainder' :=
        if serverRole.masters.length = masterRolesPerServer ∧ 0 < masterRolesRemainder then
          masterRolesRemainder - 1
        else masterRolesRemainder
      let serverRole' := { serverRole with masters := setInsert serverRole.masters shard }
      some (setRole serverRoles id serverRole',
            fun s => if s = shard then some id else masters s,
            masterRolesRemainder')

/-- `assignReplica` (sharder.go:721).  Same shape as `assignMaster` but for the
replica sets and the shard→replica-holders tracking map.  (As in the source,
the `masters` argument is accepted but unused.) -/
def assignReplica (serverRoles : Roles) (masters : Nat → Option String)
    (replicas : Nat → List String) (id : String) (shard : Nat)
    (replicaRolesPerServer : Nat) (replicaRolesRemainder : Nat) :
    Option (Roles × (Nat → List String) × Nat) :=
  match lookupRole serverRoles id with
  | none => none
  | some serverRole =>
    if replicaRolesPerServer < serverRole.replicas.length then none
    else if serverRole.replicas.length = replicaRolesPerServer ∧ replicaRolesRemainder = 0 then
      none
    else if hasShard serverRole shard then none
    else
      let replicaRolesRemainder' :=
        if serverRole.replicas.length = replicaRolesPerServer ∧ 0 < replicaRolesRemainder then
          replicaRolesRemainder - 1
        else replicaRolesRemainder
      let serverRole' := { serverRole with replicas := setInsert serverRole.replicas shard }
      some (setRole serverRoles id serverRole',
            fun s => if s = shard then (replicas shard) ++ [id] else replicas s,
            replicaRolesRemainder')

/-- Inner loop of `swapReplica` (sharder.go:771): find a shard of
`swapServerRole.Replicas` that `serverRole` does not own, provided
`swapServerRole` does not own `shard`. -/
def findSwapShard (serverRole swapServerRole : ServerRole) (shard : Nat) :
    List Nat → Option Nat
  | [] => none
  | swapShard :: rest =>
    if hasShard serverRole swapShard then findSwapShard serverRole swapServerRole shard rest
    else if hasShard swapServerRole shard then
      findSwapShard serverRole swapServerRole shard rest
    else some swapShard

/-- Outer loop of `swapReplica` (sharder.go:767): scan the other servers for a
swappable replica shard. -/
def findSwap (serverRole : ServerRole) (id : String) (shard : Nat) :
    Roles → Option (String × ServerRole × Nat)
  | [] => none
  | (swapID, swapServerRole) :: rest =>
    if swapID = id then findSwap serverRole id shard rest
    else
      match findSwapShard serverRole swapServerRole shard swapServerRole.replicas with
      | some swapShard => some (swapID, swapServerRole, swapShard)
      | none => findSwap serverRole id shard rest

/-- `swapReplica` (sharder.go:752).  Steal a replica shard `swapShard` from
another server `swapID`, hand `shard` to `swapID` (with an unbounded quota and
a zero remainder, as in the source), and hand `swapShard` to `id`.  The two
inner `assignReplica` calls have their boolean results ignored in the source;
a failed call leaves the state unchanged, which the `Option.getD`-style
matches reproduce. -/
def swapReplica (serverRoles : Roles) (masters : Nat → Option String)
    (replicas : Nat → List String) (id : String) (shard : Nat)
    (replicaRolesPerServer : Nat) :
    Option (Roles × (Nat → List String)) :=
  match lookupRole serverRoles id with
  | none => none
  | some serverRole =>
    if replicaRolesPerServer ≤ serverRole.replicas.length then none
    else
      match findSwap serverRole id shard serverRoles with
      | none => none
      | some (swapID, swapServerRole, swapShard) =>
        let swapServerRole' :=
          { swapServerRole with
            replicas := swapServerRole.replicas.filter (fun x => x ≠ swapShard) }
        let serverRoles₁ := setRole serverRoles swapID swapServerRole'
        let replicas₁ := removeReplica replicas swapShard swapID
        let step₂ :=
          match assignReplica serverRoles₁ masters replicas₁ swapID shard (2 ^ 64 - 1) 0 with
          | some (r, rep, rem) => (r, rep, rem)
          | none => (serverRoles₁, replicas₁, 0)
        let step₃ :=
          match assignReplica step₂.1 masters step₂.2.1 id swapShard replicaRolesPerServer
              step₂.2.2 with
          | some (r, rep, rem) => (r, rep, rem)
          | none => step₂
        some (step₃.1, step₃.2.1)

/-- Generic `Option`-valued fold: run `f` on each element in turn, aborting on
the first failure.  Both assignment passes are instances. -/
def optFold {σ α : Type} (f : α → σ → Option σ) : List α → σ → Option σ
  | [], st => some st
  | a :: as, st =>
    match f a st with
    | none => none
    | some st₂ => optFold f as st₂

/-- State threaded through the master pass: the roles map under construction,
the shard→master tracking map, and the mutable remainder counter. -/
structure MState where
  roles : Roles
  masters : Nat → Option String
  rem : Nat

/-- State threaded through the replica pass. -/
structure RState where
  roles : Roles
  masters : Nat → Option String
  replicas : Nat → List String
  rem : Nat

/-- Candidate preference order for a shard (sharder.go:306-325 and 336-355):
the old master, then old replicas, then servers reporting the shard locally,
then every live server. -/
def candidates (oldMasters : Nat → Option String) (oldReplicas : Nat → List String)
    (shardLocations : Nat → List String) (liveIds : List String) (shard : Nat) :
    List String :=
  (oldMasters shard).toList ++ oldReplicas shard ++ shardLocations shard ++ liveIds

/-- Try `assignMaster` on each candidate in order; first success wins
(`continue Master` in the source). -/
def tryMasterIds (masterRolesPerServer : Nat) (shard : Nat) :
    List String → MState → Option MState
  | [], _ => none
  | id :: ids, st =>
    match assignMaster st.roles st.masters id shard masterRolesPerServer st.rem with
    | some (roles₂, masters₂, rem₂) => some ⟨roles₂, masters₂, rem₂⟩
    | none => tryMasterIds masterRolesPerServer shard ids st

/-- One iteration of the `Master:` loop (one shard). -/
def masterStep (masterRolesPerServer : Nat) (cands : Nat → List String) (shard : Nat)
    (st : MState) : Option MState :=
  tryMasterIds masterRolesPerServer shard (cands shard) st

/-- The master pass over a list of shards; `none` is the
`FailedToAssignRoles` early return (sharder.go:326-331). -/
def masterPass (masterRolesPerServer : Nat) (cands : Nat → List String)
    (shardList : List Nat) (st : MState) : Option MState :=
  optFold (masterStep masterRolesPerServer cands) shardList st

/-- Try `assignReplica` on each candidate in order. -/
def tryReplicaIds (replicaRolesPerServer : Nat) (shard : Nat) :
    List String → RState → Option RState
  | [], _ => none
  | id :: ids, st =>
    match assignReplica st.roles st.masters st.replicas id shard replicaRolesPerServer
        st.rem with
    | some (roles₂, replicas₂, rem₂) => some ⟨roles₂, st.masters, replicas₂, rem₂⟩
    | none => tryReplicaIds replicaRolesPerServer shard ids st

/-- Try `swapReplica` on each live server in order (sharder.go:356-360). -/
def trySwapIds (replicaRolesPerServer : Nat) (shard : Nat) :
    List String → RState → Option RState
  | [], _ => none
  | id :: ids, st =>
    match swapReplica st.roles st.masters st.replicas id shard replicaRolesPerServer with
    | some (roles₂, replicas₂) => some ⟨roles₂, st.masters, replicas₂, st.rem⟩
    | none => trySwapIds replicaRolesPerServer shard ids st

/-- One iteration of the `Replica:` loop (one shard of one replica round):
candidates first, then the swap fallback. -/
def replicaStep (replicaRolesPerServer : Nat) (cands : Nat → List String)
    (liveIds : List String) (shard : Nat) (st : RState) : Option RState :=
  match tryReplicaIds replicaRolesPerServer shard (cands shard) st with
  | some st₂ => some st₂
  | none => trySwapIds replicaRolesPerServer shard liveIds st

/-- One replica round: the `Replica:` loop over all shards. -/
def replicaRound (replicaRolesPerServer : Nat) (cands : Nat → List String)
    (liveIds : List String) (shardList : List Nat) (st : RState) : Option RState :=
  optFold (replicaStep replicaRolesPerServer cands liveIds) shardList st

/-- The replica pass: `numReplicas` rounds over all shards (sharder.go:333-368). -/
def replicaPass (replicaRolesPerServer : Nat) (cands : Nat → List String)
    (liveIds : List String) (shardList : List Nat) (numReplicas : Nat) (st : RState) :
    Option RState :=
  optFold (fun _ st => replicaRound replicaRolesPerServer cands liveIds shardList st)
    (List.range numReplicas) st

/-- One per-shard entry of a `proto.Addresses` snapshot. -/
structure ShardAddr where
  master : String
  replicas : List String
deriving DecidableEq

/-- The `map[uint64]*proto.ShardAddresses` of an addresses snapshot. -/
abbrev ShardAddrs := List (Nat × ShardAddr)

/-- Go map read `addresses.Addresses[shard]`. -/
def lookupAddr (addrs : ShardAddrs) (shard : Nat) : Option ShardAddr :=
  (addrs.find? (fun p => p.1 = shard)).map (fun p => p.2)

/-- `shardAddresses.Master = address` on one entry. -/
def setMasterAt (addrs : ShardAddrs) (shard : Nat) (address : String) : ShardAddrs :=
  addrs.map (fun p => if p.1 = shard then (p.1, { p.2 with master := address }) else p)

/-- `shardAddresses.Replicas[address] = true` on one entry. -/
def addReplicaAt (addrs : ShardAddrs) (shard : Nat) (address : String) : ShardAddrs :=
  addrs.map
    (fun p =>
      if p.1 = shard then (p.1, { p.2 with replicas := setInsertStr p.2.replicas address })
      else p)

/-- The per-server body of the publication loop (sharder.go:386-395): record
this server's address as master/replica holder for the shards of its role. -/
def applyRoleAddresses (addrs : ShardAddrs) (address : String) (serverRole : ServerRole) :
    ShardAddrs :=
  let a₁ := serverRole.masters.foldl (fun acc s => setMasterAt acc s address) addrs
  serverRole.replicas.foldl (fun acc s => addReplicaAt acc s address) a₁

/-- Build the `proto.Addresses` snapshot (sharder.go:369-396): one entry per
shard in `[0, numShards)`, initially empty, then filled from every new role. -/
def buildAddresses (numShards : Nat) (newRoles : Roles) (addrOf : String → String) :
    ShardAddrs :=
  newRoles.foldl (fun acc p => applyRoleAddresses acc (addrOf p.1) p.2)
    ((List.range numShards).map (fun s => (s, ⟨"", []⟩)))

/-- `minVersion` computation (sharder.go:256-261 and 974-984): fold a running
minimum seeded with `math.MaxInt64`. -/
def computeMinVersion (versions : List Int) : Int :=
  versions.foldl (fun acc v => if v < acc then v else acc) (2 ^ 63 - 1)

/-- The GC wait callback (sharder.go:268-279): a frontend-state snapshot
satisfies the wait (returns `errComplete`) iff no decoded frontend state has a
version below `minVersion`. -/
def frontendGateDone (minVersion : Int) (frontendVersions : List Int) : Bool :=
  frontendVersions.all (fun v => decide (minVersion ≤ v))

/-- The deletion sweep (sharder.go:282-297): keys of role records whose
version is strictly below `minVersion`. -/
def gcDeletedKeys (minVersion : Int) (roleRecords : List (String × Int)) : List String :=
  (roleRecords.filter (fun p => decide (p.2 < minVersion))).map (fun p => p.1)

/-- The GC step of the assigner callback (sharder.go:262-298), given the
frontend-state snapshot on which the blocking one-shot wait terminated.
Returns the deleted keys and the updated `oldMinVersion`.  When the gate is
not satisfied the wait has not terminated and nothing is deleted. -/
def gcStep (oldMinVersion minVersion : Int) (frontendVersions : List Int)
    (roleRecords : List (String × Int)) : List String × Int :=
  if oldMinVersion < minVersion then
    if frontendGateDone minVersion frontendVersions then
      (gcDeletedKeys minVersion roleRecords, minVersion)
    else ([], minVersion)
  else ([], oldMinVersion)

/-- `sameServers` (sharder.go:1016). -/
def sameServers (oldServers : List String) (newIds : List String) : Bool :=
  decide (oldServers.length = newIds.length) &&
    oldServers.all (fun id => decide (id ∈ newIds))

/-- The assigner's tracked state across callbacks (sharder.go:193-198). -/
structure AssignTracker where
  version : Int
  oldServers : List String
  oldMasters : Nat → Option String
  oldReplicas : Nat → List String
  oldMinVersion : Int

/-- One input snapshot to the assigner callback: the decoded server states,
the frontend-state snapshot that terminated the GC wait (when one runs), and
the existing role records (key and decoded version) read back for GC. -/
structure AssignInput where
  serverStates : List ServerState
  frontendVersions : List Int
  roleRecords : List (String × Int)

/-- What a callback invocation published. -/
structure Publication where
  roles : Roles
  addresses : ShardAddrs
  version : Int

/-- Outcome of a callback invocation: either nothing was written
(`return nil` before the publication step) or the new roles and the
addresses snapshot were written. -/
inductive Outcome where
  | noPublish : Outcome
  | publish : Publication → Outcome

/-- All externally visible effects of one callback invocation. -/
structure CallbackEffects where
  deleted : List String
  outcome : Outcome
  tracker : AssignTracker

/-- The ids of the snapshot, in order (`newServerStates` keys). -/
def liveIdsOf (serverStates : List ServerState) : List String :=
  serverStates.map (fun ss => ss.id)

/-- `shardLocations` built from the snapshot (sharder.go:251-253). -/
def shardLocationsOf (serverStates : List ServerState) (shard : Nat) : List String :=
  ((serverStates.filter (fun ss => decide (shard ∈ ss.shards))).map (fun ss => ss.id))

/-- The empty roles built for the snapshot (sharder.go:245-250). -/
def initRoles (version : Int) (serverStates : List ServerState) : Roles :=
  serverStates.map (fun ss => (ss.id, ⟨ss.id, version, [], []⟩))

/-- `newServerStates[id].Address` (sharder.go:385). -/
def addrOfState (serverStates : List ServerState) (id : String) : String :=
  match serverStates.find? (fun ss => ss.id = id) with
  | some ss => ss.address
  | none => ""

/-- Both assignment passes, composed, from the freshly initialized state of a
callback (sharder.go:304-368). -/
def runPasses (numShards numReplicas : Nat) (t : AssignTracker)
    (serverStates : List ServerState) : Option RState :=
  let S := serverStates.length
  let cands := candidates t.oldMasters t.oldReplicas (shardLocationsOf serverStates)
    (liveIdsOf serverStates)
  let st₀ : MState := ⟨initRoles t.version serverStates, fun _ => none, numShards % S⟩
  match masterPass (numShards / S) cands (List.range numShards) st₀ with
  | none => none
  | some st₁ =>
    replicaPass ((numShards * numReplicas) / S) cands (liveIdsOf serverStates)
      (List.range numShards) numReplicas
      ⟨st₁.roles, st₁.masters, fun _ => [], (numShards * numReplicas) % S⟩

/-- The `WatchAll` callback body of `AssignRoles` (sharder.go:226-414).
Store writes/deletes are recorded in the returned effects; decoding is
presumed done (decode failures abort the callback in the source and are
outside this model, which never constructs the `Except.error` case). -/
def assignRolesCallback (numShards numReplicas : Nat) (t : AssignTracker)
    (inp : AssignInput) : Except String CallbackEffects :=
  if inp.serverStates.length = 0 then .ok ⟨[], .noPublish, t⟩
  else
    let minVersion := computeMinVersion (inp.serverStates.map (fun ss => ss.version))
    let gc := gcStep t.oldMinVersion minVersion inp.frontendVersions inp.roleRecords
    let t₁ := { t with oldMinVersion := gc.2 }
    if sameServers t.oldServers (liveIdsOf inp.serverStates) then
      .ok ⟨gc.1, .noPublish, t₁⟩
    else
      match runPasses numShards numReplicas t inp.serverStates with
      | none => .ok ⟨gc.1, .noPublish, t₁⟩
      | some st =>
        let addrs := buildAddresses numShards st.roles (addrOfState inp.serverStates)
        .ok ⟨gc.1,
             .publish ⟨st.roles, addrs, t.version⟩,
             { version := t.version + 1,
               oldServers := liveIdsOf inp.serverStates,
               oldMasters := st.masters,
               oldReplicas := st.replicas,
               oldMinVersion := gc.2 }⟩

/-- Insertion into an ascending list; `sortVersions` embeds
`sort.Sort(versions)` with `Less i j = s[i] < s[j]` (ascending). -/
def insertSorted (x : Int) : List Int → List Int
  | [] => [x]
  | y :: ys => if x ≤ y then x :: y :: ys else y :: insertSorted x ys

/-- Ascending sort of the decoded role versions (sharder.go:862-866, 890). -/
def sortVersions (l : List Int) : List Int :=
  l.foldr insertSorted []

/-- The retained version window of `fillRoles` (sharder.go:890-893): sort the
versions ascending, and when more than two are present keep `versions[0:2]`. -/
def fillRolesWindow (versions : List Int) : List Int :=
  let sorted := sortVersions versions
  if 2 < sorted.length then sorted.take 2 else sorted

/-- One `runFrontend` watch-callback invocation over the decoded server-state
versions: returns the new tracked version and the argument of the
`frontend.Version` call (also published on the version channel) when one is
made. -/
def runFrontendStep (version : Int) (serverVersions : List Int) : Int × Option Int :=
  if serverVersions.length = 0 then (version, none)
  else
    let minVersion := computeMinVersion serverVersions
    if version < minVersion then (minVersion, some minVersion) else (version, none)

/-- The key list of a roles map. -/
def keysOf (serverRoles : Roles) : List String :=
  serverRoles.map (fun p => p.1)

/-- Number of role entries that hold `s` as a master. -/
def masterShardCount (rs : Roles) (s : Nat) : Nat :=
  rs.countP (fun p => decide (s ∈ p.2.masters))

/-- Number of role entries that hold `s` as a replica. -/
def replicaShardCount (rs : Roles) (s : Nat) : Nat :=
  rs.countP (fun p => decide (s ∈ p.2.replicas))

/-- Total number of master assignments. -/
def sumMasters (rs : Roles) : Nat := (rs.map (fun p => p.2.masters.length)).sum

/-- Total number of replica assignments. -/
def sumReplicas (rs : Roles) : Nat := (rs.map (fun p => p.2.replicas.length)).sum

/-- Number of servers that exceeded the master quota (hold `q + 1` masters). -/
def exceedMasters (q : Nat) (rs : Roles) : Nat :=
  rs.countP (fun p => decide (p.2.masters.length = q + 1))

/-- Number of servers that exceeded the replica quota. -/
def exceedReplicas (q : Nat) (rs : Roles) : Nat :=
  rs.countP (fun p => decide (p.2.replicas.length = q + 1))

/-- Invariant carried through the master pass. -/
def MInv (q r0 : Nat) (keys : List String) (st : MState) : Prop :=
  keysOf st.roles = keys ∧
  (∀ p ∈ st.roles, p.2.masters.length ≤ q + 1) ∧
  exceedMasters q st.roles + st.rem = r0 ∧
  (∀ p ∈ st.roles, p.2.masters.Nodup) ∧
  (∀ p ∈ st.roles, p.2.replicas = [])

/-- Invariant carried through the replica pass. -/
def RInv (q r0 : Nat) (keys : List String) (st : RState) : Prop :=
  keysOf st.roles = keys ∧
  (∀ p ∈ st.roles, p.2.replicas.length ≤ q + 1) ∧
  exceedReplicas q st.roles + st.rem = r0 ∧
  (∀ p ∈ st.roles, p.2.replicas.Nodup)

/-- A two-server snapshot used to exercise the claims on concrete data. -/
def wStates : List ServerState :=
  [⟨"a", "addrA", 0, []⟩, ⟨"b", "addrB", 0, []⟩]

/-- A fresh assigner tracker. -/
def wTracker : AssignTracker :=
  ⟨0, [], fun _ => none, fun _ => [], 0⟩

/-- A full callback input over `wStates`. -/
def wInput : AssignInput := ⟨wStates, [], []⟩

/-- Total extractor for the effects of an `Except`-valued callback. -/
def effectsOf (e : Except String CallbackEffects) : CallbackEffects :=
  match e with
  | .ok eff => eff
  | .error _ => ⟨[], .noPublish, ⟨0, [], fun _ => none, fun _ => [], 0⟩⟩

/-- Total extractor for the publication of an outcome. -/
def publicationOf (o : Outcome) : Publication :=
  match o with
  | .publish p => p
  | .noPublish => ⟨[], [], 0⟩

/-- `return nil` without any write: the callback succeeded but published
nothing. -/
def isOkNoPublish (e : Except String CallbackEffects) : Prop :=
  match e with
  | .ok eff => eff.outcome = Outcome.noPublish
  | .error _ => False

/-- A single-server snapshot on which the replica pass necessarily fails
(one server cannot hold a replica of its own master shard). -/
def w1Input : AssignInput := ⟨[⟨"a", "addrA", 0, []⟩], [], []⟩

/-- Per-server disjointness of the master and replica shard sets. -/
def rolesDisjoint (rs : Roles) : Prop :=
  ∀ p ∈ rs, ∀ s ∈ p.2.masters, s ∉ p.2.replicas

/-- The server `id` holds `s` as a master in the roles map. -/
def ownsMasterShard (rs : Roles) (id : String) (s : Nat) : Prop :=
  match lookupRole rs id with
  | some r => s ∈ r.masters
  | none => False

/-- The previous-master map used by the concrete stickiness witness. -/
def wOm : Nat → Option String := fun s => if s = 0 then some "b" else none

/-- The concrete candidate function of the witness. -/
def wCands : Nat → List String :=
  candidates wOm (fun _ => []) (fun _ => []) ["a", "b"]

/-- The concrete master-pass start state of the witness. -/
def wSt0 : MState := ⟨initRoles 0 wStates, fun _ => none, 0⟩

/-- Total extractor for an optional master-pass state. -/
def mstateOf (o : Option MState) : MState :=
  match o with
  | some st => st
  | none => ⟨[], fun _ => none, 0⟩

/-- The master endpoint recorded for a shard. -/
def addrMasterAt (addrs : ShardAddrs) (shard : Nat) : Option String :=
  (lookupAddr addrs shard).map (fun e => e.master)

/-- The replica endpoints recorded for a shard. -/
def addrReplicasAt (addrs : ShardAddrs) (shard : Nat) : List String :=
  match lookupAddr addrs shard with
  | some e => e.replicas
  | none => []

/-!  ## Lemmas and claim theorems -/

theorem lookupRole_cons {p : String × ServerRole} {tl : Roles} {id : String} :
    lookupRole (p :: tl) id = if p.1 = id then some p.2 else lookupRole tl id := by
  by_cases hp : p.1 = id
  · rw [if_pos hp]
    unfold lookupRole
    rw [List.find?_cons_of_pos _ (by simpa using hp)]
    rfl
  · rw [if_neg hp]
    unfold lookupRole
    rw [List.find?_cons_of_neg _ (by simpa using hp)]

theorem setRole_cons {p : String × ServerRole} {tl : Roles} {id : String}
    {r : ServerRole} :
    setRole (p :: tl) id r = (if p.1 = id then (id, r) else p) :: setRole tl id r := by
  simp [setRole]

theorem keysOf_cons {p : String × ServerRole} {tl : Roles} :
    keysOf (p :: tl) = p.1 :: keysOf tl := by
  simp [keysOf]

theorem lookupRole_eq_none_of_not_mem {rs : Roles} {id : String}
    (h : id ∉ keysOf rs) : lookupRole rs id = none := by
  induction rs with
  | nil => rfl
  | cons p tl ih =>
    rw [keysOf_cons, List.mem_cons, not_or] at h
    rw [lookupRole_cons, if_neg (fun hc => h.1 hc.symm)]
    exact ih h.2

theorem lookupRole_mem {rs : Roles} {id : String} {r : ServerRole}
    (h : lookupRole rs id = some r) : (id, r) ∈ rs := by
  induction rs with
  | nil => simp [lookupRole] at h
  | cons p tl ih =>
    rw [lookupRole_cons] at h
    by_cases hp : p.1 = id
    · rw [if_pos hp] at h
      obtain ⟨pa, pb⟩ := p
      obtain rfl : pa = id := hp
      obtain rfl : pb = r := by simpa using h
      exact List.mem_cons_self _ _
    · rw [if_neg hp] at h
      exact List.mem_cons_of_mem _ (ih h)

theorem lookupRole_of_mem_nodup {rs : Roles} {id : String} {r : ServerRole}
    (hnd : (keysOf rs).Nodup) (h : (id, r) ∈ rs) : lookupRole rs id = some r := by
  induction rs with
  | nil => simp at h
  | cons p tl ih =>
    rw [keysOf_cons, List.nodup_cons] at hnd
    rw [lookupRole_cons]
    rcases List.mem_cons.mp h with h1 | h2
    · rw [if_pos (by rw [← h1])]
      rw [← h1]
    · have hne : p.1 ≠ id := by
        intro hc
        apply hnd.1
        rw [hc]
        simpa [keysOf] using List.mem_map_of_mem (fun q => q.1) h2
      rw [if_neg hne]
      exact ih hnd.2 h2

theorem keysOf_setRole (rs : Roles) (id : String) (r : ServerRole) :
    keysOf (setRole rs id r) = keysOf rs := by
  induction rs with
  | nil => rfl
  | cons p tl ih =>
    rw [setRole_cons, keysOf_cons, keysOf_cons, ih]
    by_cases hp : p.1 = id
    · rw [if_pos hp, hp]
    · rw [if_neg hp]

theorem setRole_eq_of_not_mem {rs : Roles} {id : String} (r : ServerRole)
    (h : id ∉ keysOf rs) : setRole rs id r = rs := by
  induction rs with
  | nil => rfl
  | cons p tl ih =>
    rw [keysOf_cons, List.mem_cons, not_or] at h
    rw [setRole_cons, if_neg (fun hc => h.1 hc.symm), ih h.2]

theorem lookupRole_setRole_self {rs : Roles} {id : String} (r : ServerRole)
    (h : id ∈ keysOf rs) : lookupRole (setRole rs id r) id = some r := by
  induction rs with
  | nil => simp [keysOf] at h
  | cons p tl ih =>
    rw [setRole_cons]
    by_cases hp : p.1 = id
    · rw [if_pos hp, lookupRole_cons, if_pos rfl]
    · rw [keysOf_cons, List.mem_cons] at h
      rcases h with h1 | h2
      · exact absurd h1.symm hp
      · rw [if_neg hp, lookupRole_cons, if_neg hp]
        exact ih h2

theorem lookupRole_setRole_ne {rs : Roles} {id id' : String} (r : ServerRole)
    (h : id' ≠ id) : lookupRole (setRole rs id r) id' = lookupRole rs id' := by
  induction rs with
  | nil => rfl
  | cons p tl ih =>
    rw [setRole_cons, lookupRole_cons, lookupRole_cons]
    by_cases hp : p.1 = id
    · rw [if_pos hp]
      have h1 : ¬(((id, r) : String × ServerRole).1 = id') := fun hc => h (by simpa using hc.symm)
      have h2 : ¬(p.1 = id') := by rw [hp]; exact fun hc => h hc.symm
      rw [if_neg h1, if_neg h2]
      exact ih
    · rw [if_neg hp]
      by_cases hq : p.1 = id'
      · rw [if_pos hq, if_pos hq]
      · rw [if_neg hq, if_neg hq]
        exact ih

theorem mem_setRole {rs : Roles} {id : String} {r : ServerRole} {p : String × ServerRole}
    (h : p ∈ setRole rs id r) : p = (id, r) ∨ (p ∈ rs ∧ p.1 ≠ id) := by
  simp only [setRole, List.mem_map] at h
  obtain ⟨q, hq, hqe⟩ := h
  by_cases hk : q.1 = id
  · rw [if_pos hk] at hqe
    exact Or.inl hqe.symm
  · rw [if_neg hk] at hqe
    subst hqe
    exact Or.inr ⟨hq, hk⟩

theorem forall_mem_setRole {rs : Roles} {id : String} {r : ServerRole}
    {P : String × ServerRole → Prop} (hid : P (id, r))
    (hrest : ∀ p ∈ rs, P p) : ∀ p ∈ setRole rs id r, P p := by
  intro p hp
  rcases mem_setRole hp with h | h
  · exact h ▸ hid
  · exact hrest p h.1

theorem countP_setRole {rs : Roles} {id : String} {r₀ r : ServerRole}
    (f : String × ServerRole → Bool)
    (hnd : (keysOf rs).Nodup) (h : lookupRole rs id = some r₀) :
    (setRole rs id r).countP f + (if f (id, r₀) then 1 else 0) =
      rs.countP f + (if f (id, r) then 1 else 0) := by
  induction rs with
  | nil => simp [lookupRole] at h
  | cons p tl ih =>
    rw [keysOf_cons, List.nodup_cons] at hnd
    rw [lookupRole_cons] at h
    rw [setRole_cons]
    by_cases hp : p.1 = id
    · rw [if_pos hp] at *
      have hr₀ : p.2 = r₀ := by simpa using h
      have hnotin : id ∉ keysOf tl := fun hc => hnd.1 (hp ▸ hc)
      have hp2 : p = (id, r₀) := by
        obtain ⟨pa, pb⟩ := p
        simp only at hp hr₀
        rw [hp, hr₀]
      rw [setRole_eq_of_not_mem r hnotin, List.countP_cons, List.countP_cons, hp2]
      omega
    · rw [if_neg hp] at h
      have := ih hnd.2 h
      rw [if_neg hp, List.countP_cons, List.countP_cons]
      omega

theorem sumBy_setRole {rs : Roles} {id : String} {r₀ r : ServerRole}
    (g : ServerRole → Nat)
    (hnd : (keysOf rs).Nodup) (h : lookupRole rs id = some r₀) :
    ((setRole rs id r).map (fun p => g p.2)).sum + g r₀ =
      (rs.map (fun p => g p.2)).sum + g r := by
  induction rs with
  | nil => simp [lookupRole] at h
  | cons p tl ih =>
    rw [keysOf_cons, List.nodup_cons] at hnd
    rw [lookupRole_cons] at h
    rw [setRole_cons]
    by_cases hp : p.1 = id
    · rw [if_pos hp] at *
      have hr₀ : p.2 = r₀ := by simpa using h
      have hnotin : id ∉ keysOf tl := fun hc => hnd.1 (hp ▸ hc)
      rw [setRole_eq_of_not_mem r hnotin, List.map_cons, List.map_cons, List.sum_cons,
        List.sum_cons, hr₀, show ((id, r) : String × ServerRole).2 = r from rfl]
      omega
    · rw [if_neg hp] at h
      have := ih hnd.2 h
      rw [if_neg hp, List.map_cons, List.map_cons, List.sum_cons, List.sum_cons]
      omega

theorem projMasters_setRole {rs : Roles} {id : String} {r₀ r : ServerRole}
    (hnd : (keysOf rs).Nodup) (h : lookupRole rs id = some r₀)
    (hm : r.masters = r₀.masters) :
    (setRole rs id r).map (fun p => (p.1, p.2.masters)) =
      rs.map (fun p => (p.1, p.2.masters)) := by
  induction rs with
  | nil => simp [lookupRole] at h
  | cons p tl ih =>
    rw [keysOf_cons, List.nodup_cons] at hnd
    rw [lookupRole_cons] at h
    rw [setRole_cons]
    by_cases hp : p.1 = id
    · rw [if_pos hp] at *
      have hr₀ : p.2 = r₀ := by simpa using h
      have hnotin : id ∉ keysOf tl := fun hc => hnd.1 (hp ▸ hc)
      rw [setRole_eq_of_not_mem r hnotin, List.map_cons, List.map_cons]
      simp [hm, hr₀, hp]
    · rw [if_neg hp] at h
      rw [if_neg hp, List.map_cons, List.map_cons, ih hnd.2 h]

theorem optFold_cons {σ α : Type} (f : α → σ → Option σ) (a : α) (L : List α) (st : σ) :
    optFold f (a :: L) st =
      (match f a st with
       | none => none
       | some st₂ => optFold f L st₂) := rfl

theorem optFold_append {σ α : Type} (f : α → σ → Option σ) (A B : List α) (st : σ) :
    optFold f (A ++ B) st = (optFold f A st).bind (optFold f B) := by
  induction A generalizing st with
  | nil => simp [optFold]
  | cons a as ih =>
    rw [List.cons_append, optFold_cons, optFold_cons]
    cases f a st with
    | none => rfl
    | some st₂ => exact ih st₂

theorem optFold_inv {σ α : Type} {f : α → σ → Option σ} {I : σ → Prop}
    (hstep : ∀ a st st₂, f a st = some st₂ → I st → I st₂) :
    ∀ {L : List α} {st st₂ : σ}, optFold f L st = some st₂ → I st → I st₂ := by
  intro L
  induction L with
  | nil =>
    intro st st₂ h hI
    cases h
    exact hI
  | cons a as ih =>
    intro st st₂ h hI
    rw [optFold_cons] at h
    cases hf : f a st with
    | none => rw [hf] at h; cases h
    | some stm =>
      rw [hf] at h
      exact ih h (hstep a st stm hf hI)

theorem optFold_add {σ α : Type} {f : α → σ → Option σ} {I : σ → Prop} {g : σ → Nat}
    {c : Nat}
    (hstep : ∀ a st st₂, f a st = some st₂ → I st → I st₂ ∧ g st₂ = g st + c) :
    ∀ {L : List α} {st st₂ : σ}, optFold f L st = some st₂ → I st →
      g st₂ = g st + c * L.length := by
  intro L
  induction L with
  | nil =>
    intro st st₂ h hI
    cases h
    simp
  | cons a as ih =>
    intro st st₂ h hI
    rw [optFold_cons] at h
    cases hf : f a st with
    | none => rw [hf] at h; cases h
    | some stm =>
      rw [hf] at h
      obtain ⟨hI₂, hg⟩ := hstep a st stm hf hI
      rw [ih h hI₂, hg, List.length_cons]
      ring

theorem optFold_count {σ α : Type} [DecidableEq α] {f : α → σ → Option σ} {I : σ → Prop}
    {g : α → σ → Nat}
    (hstep : ∀ a st st₂, f a st = some st₂ → I st →
      I st₂ ∧ ∀ b, g b st₂ = g b st + (if b = a then 1 else 0)) :
    ∀ {L : List α} {st st₂ : σ}, optFold f L st = some st₂ → I st → L.Nodup →
      ∀ b, g b st₂ = g b st + (if b ∈ L then 1 else 0) := by
  intro L
  induction L with
  | nil =>
    intro st st₂ h hI _ b
    cases h
    simp
  | cons a as ih =>
    intro st st₂ h hI hnd b
    rw [List.nodup_cons] at hnd
    rw [optFold_cons] at h
    cases hf : f a st with
    | none => rw [hf] at h; cases h
    | some stm =>
      rw [hf] at h
      obtain ⟨hI₂, hg⟩ := hstep a st stm hf hI
      have := ih h hI₂ hnd.2 b
      rw [this, hg b]
      by_cases hb : b = a
      · subst hb
        rw [if_neg hnd.1, if_pos rfl, if_pos (List.mem_cons_self _ _)]
      · rw [if_neg hb]
        by_cases hbs : b ∈ as
        · rw [if_pos hbs, if_pos (List.mem_cons_of_mem _ hbs)]
        · rw [if_neg hbs, if_neg (by
            intro hc
            rcases List.mem_cons.mp hc with h1 | h2
            · exact hb h1
            · exact hbs h2)]

theorem nodup_append_singleton {α : Type} {l : List α} {a : α} (hnd : l.Nodup)
    (h : a ∉ l) : (l ++ [a]).Nodup := by
  induction l with
  | nil => simp
  | cons b tl ih =>
    rw [List.nodup_cons] at hnd
    rw [List.cons_append, List.nodup_cons]
    refine ⟨?_, ih hnd.2 (fun hc => h (List.mem_cons_of_mem _ hc))⟩
    intro hc
    rcases List.mem_append.mp hc with h1 | h2
    · exact hnd.1 h1
    · rw [List.mem_singleton] at h2
      exact h (h2 ▸ List.mem_cons_self _ _)

theorem length_filter_ne_of_nodup {l : List Nat} {a : Nat} (hnd : l.Nodup) (h : a ∈ l) :
    (l.filter (fun x => x ≠ a)).length + 1 = l.length := by
  induction l with
  | nil => simp at h
  | cons b tl ih =>
    rw [List.nodup_cons] at hnd
    rw [List.filter_cons]
    by_cases hb : b = a
    · subst hb
      rw [if_neg (by simp)]
      have hfe : tl.filter (fun x => x ≠ b) = tl := by
        apply List.filter_eq_self.mpr
        intro x hx
        have hxb : x ≠ b := fun hc => hnd.1 (hc ▸ hx)
        simpa using hxb
      rw [hfe]
      simp
    · rw [if_pos (by simpa using hb)]
      have ha : a ∈ tl := by
        rcases List.mem_cons.mp h with h1 | h2
        · exact absurd h1.symm hb
        · exact h2
      have := ih hnd.2 ha
      rw [List.length_cons, List.length_cons]
      omega

theorem mem_filter_ne {l : List Nat} {a x : Nat}
    (h : x ∈ l.filter (fun y => y ≠ a)) : x ∈ l :=
  List.mem_of_mem_filter h

theorem not_mem_filter_self {l : List Nat} {a : Nat} :
    a ∉ l.filter (fun y => y ≠ a) := by
  intro h
  have := List.of_mem_filter h
  simp at this

theorem filter_ne_nodup {l : List Nat} {a : Nat} (hnd : l.Nodup) :
    (l.filter (fun y => y ≠ a)).Nodup := hnd.filter _

theorem setRole_setRole_same (rs : Roles) (id : String) (a b : ServerRole) :
    setRole (setRole rs id a) id b = setRole rs id b := by
  induction rs with
  | nil => rfl
  | cons p tl ih =>
    rw [setRole_cons, setRole_cons, setRole_cons, ih]
    congr 1
    by_cases hp : p.1 = id
    · simp [hp]
    · simp [hp]

theorem assignMaster_some {serverRoles : Roles} {masters : Nat → Option String}
    {id : String} {shard : Nat} {q rem : Nat}
    {out : Roles × (Nat → Option String) × Nat}
    (h : assignMaster serverRoles masters id shard q rem = some out) :
    ∃ serverRole, lookupRole serverRoles id = some serverRole ∧
      serverRole.masters.length ≤ q ∧
      (serverRole.masters.length = q → 0 < rem) ∧
      shard ∉ serverRole.masters ∧ shard ∉ serverRole.replicas ∧
      out.1 = setRole serverRoles id
        { serverRole with masters := serverRole.masters ++ [shard] } ∧
      out.2.1 = (fun s => if s = shard then some id else masters s) ∧
      out.2.2 = (if serverRole.masters.length = q then rem - 1 else rem) := by
  unfold assignMaster at h
  cases hl : lookupRole serverRoles id with
  | none => rw [hl] at h; cases h
  | some serverRole =>
    rw [hl] at h
    dsimp only at h
    by_cases h1 : q < serverRole.masters.length
    · rw [if_pos h1] at h; cases h
    rw [if_neg h1] at h
    by_cases h2 : serverRole.masters.length = q ∧ rem = 0
    · rw [if_pos h2] at h; cases h
    rw [if_neg h2] at h
    by_cases h3 : hasShard serverRole shard = true
    · rw [if_pos h3] at h; cases h
    rw [if_neg h3] at h
    simp only [hasShard, Bool.or_eq_true, decide_eq_true_eq, not_or] at h3
    injection h with h4
    subst h4
    refine ⟨serverRole, rfl, Nat.le_of_not_lt h1, ?_, h3.1, h3.2, ?_, rfl, ?_⟩
    · intro he
      rcases Nat.eq_zero_or_pos rem with h0 | h0
      · exact absurd ⟨he, h0⟩ h2
      · exact h0
    · show setRole serverRoles id
        { serverRole with masters := setInsert serverRole.masters shard } = _
      rw [show setInsert serverRole.masters shard = serverRole.masters ++ [shard] from by
        unfold setInsert
        rw [if_neg h3.1]]
    · show (if serverRole.masters.length = q ∧ 0 < rem then rem - 1 else rem) = _
      by_cases he : serverRole.masters.length = q
      · have h0 : 0 < rem := by
          rcases Nat.eq_zero_or_pos rem with h0 | h0
          · exact absurd ⟨he, h0⟩ h2
          · exact h0
        rw [if_pos ⟨he, h0⟩, if_pos he]
      · rw [if_neg (fun hc => he hc.1), if_neg he]

theorem assignReplica_some {serverRoles : Roles} {masters : Nat → Option String}
    {replicas : Nat → List String} {id : String} {shard : Nat} {q rem : Nat}
    {out : Roles × (Nat → List String) × Nat}
    (h : assignReplica serverRoles masters replicas id shard q rem = some out) :
    ∃ serverRole, lookupRole serverRoles id = some serverRole ∧
      serverRole.replicas.length ≤ q ∧
      (serverRole.replicas.length = q → 0 < rem) ∧
      shard ∉ serverRole.masters ∧ shard ∉ serverRole.replicas ∧
      out.1 = setRole serverRoles id
        { serverRole with replicas := serverRole.replicas ++ [shard] } ∧
      out.2.1 = (fun s => if s = shard then (replicas shard) ++ [id] else replicas s) ∧
      out.2.2 = (if serverRole.replicas.length = q then rem - 1 else rem) := by
  unfold assignReplica at h
  cases hl : lookupRole serverRoles id with
  | none => rw [hl] at h; cases h
  | some serverRole =>
    rw [hl] at h
    dsimp only at h
    by_cases h1 : q < serverRole.replicas.length
    · rw [if_pos h1] at h; cases h
    rw [if_neg h1] at h
    by_cases h2 : serverRole.replicas.length = q ∧ rem = 0
    · rw [if_pos h2] at h; cases h
    rw [if_neg h2] at h
    by_cases h3 : hasShard serverRole shard = true
    · rw [if_pos h3] at h; cases h
    rw [if_neg h3] at h
    simp only [hasShard, Bool.or_eq_true, decide_eq_true_eq, not_or] at h3
    injection h with h4
    subst h4
    refine ⟨serverRole, rfl, Nat.le_of_not_lt h1, ?_, h3.1, h3.2, ?_, rfl, ?_⟩
    · intro he
      rcases Nat.eq_zero_or_pos rem with h0 | h0
      · exact absurd ⟨he, h0⟩ h2
      · exact h0
    · show setRole serverRoles id
        { serverRole with replicas := setInsert serverRole.replicas shard } = _
      rw [show setInsert serverRole.replicas shard = serverRole.replicas ++ [shard] from by
        unfold setInsert
        rw [if_neg h3.2]]
    · show (if serverRole.replicas.length = q ∧ 0 < rem then rem - 1 else rem) = _
      by_cases he : serverRole.replicas.length = q
      · have h0 : 0 < rem := by
          rcases Nat.eq_zero_or_pos rem with h0 | h0
          · exact absurd ⟨he, h0⟩ h2
          · exact h0
        rw [if_pos ⟨he, h0⟩, if_pos he]
      · rw [if_neg (fun hc => he hc.1), if_neg he]

theorem lookupRole_eq_none_iff {rs : Roles} {id : String} :
    lookupRole rs id = none ↔ id ∉ keysOf rs := by
  constructor
  · intro h hc
    induction rs with
    | nil => simp [keysOf] at hc
    | cons p tl ih =>
      rw [lookupRole_cons] at h
      rw [keysOf_cons, List.mem_cons] at hc
      by_cases hp : p.1 = id
      · rw [if_pos hp] at h; cases h
      · rw [if_neg hp] at h
        rcases hc with h1 | h2
        · exact hp h1.symm
        · exact ih h h2
  · exact lookupRole_eq_none_of_not_mem

theorem tryMasterIds_some {q shard : Nat} :
    ∀ {ids : List String} {st st₂ : MState},
      tryMasterIds q shard ids st = some st₂ →
      ∃ id, id ∈ ids ∧ assignMaster st.roles st.masters id shard q st.rem =
        some (st₂.roles, st₂.masters, st₂.rem) := by
  intro ids
  induction ids with
  | nil => intro st st₂ h; cases h
  | cons id rest ih =>
    intro st st₂ h
    unfold tryMasterIds at h
    cases ha : assignMaster st.roles st.masters id shard q st.rem with
    | some out =>
      rw [ha] at h
      obtain ⟨o1, o2, o3⟩ := out
      cases h
      exact ⟨id, List.mem_cons_self _ _, ha⟩
    | none =>
      rw [ha] at h
      obtain ⟨id₂, hm, he⟩ := ih h
      exact ⟨id₂, List.mem_cons_of_mem _ hm, he⟩

theorem tryReplicaIds_some {q shard : Nat} :
    ∀ {ids : List String} {st st₂ : RState},
      tryReplicaIds q shard ids st = some st₂ →
      st₂.masters = st.masters ∧
      ∃ id, id ∈ ids ∧ assignReplica st.roles st.masters st.replicas id shard q st.rem =
        some (st₂.roles, st₂.replicas, st₂.rem) := by
  intro ids
  induction ids with
  | nil => intro st st₂ h; cases h
  | cons id rest ih =>
    intro st st₂ h
    unfold tryReplicaIds at h
    cases ha : assignReplica st.roles st.masters st.replicas id shard q st.rem with
    | some out =>
      rw [ha] at h
      obtain ⟨o1, o2, o3⟩ := out
      cases h
      exact ⟨rfl, id, List.mem_cons_self _ _, ha⟩
    | none =>
      rw [ha] at h
      obtain ⟨hm, id₂, hmem, he⟩ := ih h
      exact ⟨hm, id₂, List.mem_cons_of_mem _ hmem, he⟩

theorem trySwapIds_some {q shard : Nat} :
    ∀ {ids : List String} {st st₂ : RState},
      trySwapIds q shard ids st = some st₂ →
      st₂.masters = st.masters ∧ st₂.rem = st.rem ∧
      ∃ id, id ∈ ids ∧ swapReplica st.roles st.masters st.replicas id shard q =
        some (st₂.roles, st₂.replicas) := by
  intro ids
  induction ids with
  | nil => intro st st₂ h; cases h
  | cons id rest ih =>
    intro st st₂ h
    unfold trySwapIds at h
    cases ha : swapReplica st.roles st.masters st.replicas id shard q with
    | some out =>
      rw [ha] at h
      obtain ⟨o1, o2⟩ := out
      cases h
      exact ⟨rfl, rfl, id, List.mem_cons_self _ _, ha⟩
    | none =>
      rw [ha] at h
      obtain ⟨hm, hr, id₂, hmem, he⟩ := ih h
      exact ⟨hm, hr, id₂, List.mem_cons_of_mem _ hmem, he⟩

theorem findSwapShard_some {serverRole swapServerRole : ServerRole} {shard : Nat} :
    ∀ {l : List Nat} {swapShard : Nat},
      findSwapShard serverRole swapServerRole shard l = some swapShard →
      swapShard ∈ l ∧ hasShard serverRole swapShard = false ∧
        hasShard swapServerRole shard = false := by
  intro l
  induction l with
  | nil => intro swapShard h; cases h
  | cons a rest ih =>
    intro swapShard h
    unfold findSwapShard at h
    by_cases h1 : hasShard serverRole a = true
    · rw [if_pos h1] at h
      obtain ⟨hm, h2, h3⟩ := ih h
      exact ⟨List.mem_cons_of_mem _ hm, h2, h3⟩
    rw [if_neg h1] at h
    by_cases h2 : hasShard swapServerRole shard = true
    · rw [if_pos h2] at h
      obtain ⟨hm, h3, h4⟩ := ih h
      exact ⟨List.mem_cons_of_mem _ hm, h3, h4⟩
    rw [if_neg h2] at h
    cases h
    exact ⟨List.mem_cons_self _ _, Bool.not_eq_true _ ▸ h1, Bool.not_eq_true _ ▸ h2⟩

theorem findSwap_some {serverRole : ServerRole} {id : String} {shard : Nat} :
    ∀ {rs : Roles} {res : String × ServerRole × Nat},
      findSwap serverRole id shard rs = some res →
      (res.1, res.2.1) ∈ rs ∧ res.1 ≠ id ∧
      res.2.2 ∈ res.2.1.replicas ∧
      hasShard serverRole res.2.2 = false ∧
      hasShard res.2.1 shard = false := by
  intro rs
  induction rs with
  | nil => intro res h; cases h
  | cons p tl ih =>
    intro res h
    obtain ⟨swapID, swapServerRole⟩ := p
    unfold findSwap at h
    by_cases h1 : swapID = id
    · rw [if_pos h1] at h
      obtain ⟨hm, h2, h3, h4, h5⟩ := ih h
      exact ⟨List.mem_cons_of_mem _ hm, h2, h3, h4, h5⟩
    rw [if_neg h1] at h
    cases hf : findSwapShard serverRole swapServerRole shard swapServerRole.replicas with
    | some swapShard =>
      rw [hf] at h
      cases h
      obtain ⟨hm, h2, h3⟩ := findSwapShard_some hf
      exact ⟨List.mem_cons_self _ _, h1, hm, h2, h3⟩
    | none =>
      rw [hf] at h
      obtain ⟨hm, h2, h3, h4, h5⟩ := ih h
      exact ⟨List.mem_cons_of_mem _ hm, h2, h3, h4, h5⟩

theorem hasShard_eq_false_iff {r : ServerRole} {s : Nat} :
    hasShard r s = false ↔ s ∉ r.masters ∧ s ∉ r.replicas := by
  simp [hasShard]

theorem swapReplica_some {serverRoles : Roles} {masters : Nat → Option String}
    {replicas : Nat → List String} {id : String} {shard : Nat} {q : Nat}
    {out : Roles × (Nat → List String)}
    (hnd : (keysOf serverRoles).Nodup)
    (hlen : ∀ p ∈ serverRoles, p.2.replicas.length ≤ q + 1)
    (hrepnd : ∀ p ∈ serverRoles, p.2.replicas.Nodup)
    (hq : q + 2 ≤ 2 ^ 64)
    (h : swapReplica serverRoles masters replicas id shard q = some out) :
    ∃ serverRole swapID swapServerRole swapShard,
      lookupRole serverRoles id = some serverRole ∧
      serverRole.replicas.length < q ∧
      (swapID, swapServerRole) ∈ serverRoles ∧ swapID ≠ id ∧
      swapShard ∈ swapServerRole.replicas ∧
      shard ∉ swapServerRole.masters ∧ shard ∉ swapServerRole.replicas ∧
      swapShard ∉ serverRole.masters ∧ swapShard ∉ serverRole.replicas ∧
      (swapServerRole.replicas.filter (fun x => x ≠ swapShard)).length + 1 =
        swapServerRole.replicas.length ∧
      out.1 = setRole (setRole serverRoles swapID
        { swapServerRole with replicas :=
            (swapServerRole.replicas.filter (fun x => x ≠ swapShard)) ++ [shard] }) id
        { serverRole with replicas := serverRole.replicas ++ [swapShard] } := by
  unfold swapReplica at h
  cases hl : lookupRole serverRoles id with
  | none => rw [hl] at h; cases h
  | some serverRole =>
    rw [hl] at h
    dsimp only at h
    by_cases h1 : q ≤ serverRole.replicas.length
    · rw [if_pos h1] at h; cases h
    rw [if_neg h1] at h
    cases hf : findSwap serverRole id shard serverRoles with
    | none => rw [hf] at h; cases h
    | some res =>
      rw [hf] at h
      obtain ⟨swapID, swapServerRole, swapShard⟩ := res
      dsimp only at h
      obtain ⟨hmem, hne, hrep, hno1, hno2⟩ := findSwap_some hf
      dsimp only at hmem hne hrep hno1 hno2
      obtain ⟨hn1m, hn1r⟩ := hasShard_eq_false_iff.mp hno1
      obtain ⟨hn2m, hn2r⟩ := hasShard_eq_false_iff.mp hno2
      have hkey : swapID ∈ keysOf serverRoles := by
        simpa [keysOf] using List.mem_map_of_mem (fun p => p.1) hmem
      have hfl : (swapServerRole.replicas.filter (fun x => x ≠ swapShard)).length + 1 =
          swapServerRole.replicas.length :=
        length_filter_ne_of_nodup (hrepnd _ hmem) hrep
      have hlenS : swapServerRole.replicas.length ≤ q + 1 := hlen _ hmem
      have hl1 : lookupRole (setRole serverRoles swapID
          { swapServerRole with
            replicas := swapServerRole.replicas.filter (fun x => x ≠ swapShard) }) swapID =
          some { swapServerRole with
            replicas := swapServerRole.replicas.filter (fun x => x ≠ swapShard) } :=
        lookupRole_setRole_self _ hkey
      have hsi1 : setInsert (swapServerRole.replicas.filter (fun x => x ≠ swapShard)) shard =
          (swapServerRole.replicas.filter (fun x => x ≠ swapShard)) ++ [shard] := by
        unfold setInsert
        rw [if_neg (fun hc => hn2r (List.mem_of_mem_filter hc))]
      have ha1 : assignReplica (setRole serverRoles swapID
            { swapServerRole with
              replicas := swapServerRole.replicas.filter (fun x => x ≠ swapShard) })
          masters (removeReplica replicas swapShard swapID) swapID shard (2 ^ 64 - 1) 0 =
          some (setRole (setRole serverRoles swapID
              { swapServerRole with
                replicas := swapServerRole.replicas.filter (fun x => x ≠ swapShard) }) swapID
            { swapServerRole with
              replicas := (swapServerRole.replicas.filter (fun x => x ≠ swapShard)) ++ [shard] },
            fun s => if s = shard then
                ((removeReplica replicas swapShard swapID) shard) ++ [swapID]
              else (removeReplica replicas swapShard swapID) s,
            0) := by
        unfold assignReplica
        rw [hl1]
        dsimp only
        rw [if_neg (show ¬(2 ^ 64 - 1 <
            (swapServerRole.replicas.filter (fun x => x ≠ swapShard)).length) by omega)]
        rw [if_neg (show ¬((swapServerRole.replicas.filter (fun x => x ≠ swapShard)).length =
            2 ^ 64 - 1 ∧ (0 : Nat) = 0) from fun hc => by omega)]
        rw [if_neg (show ¬(hasShard { swapServerRole with
            replicas := swapServerRole.replicas.filter (fun x => x ≠ swapShard) } shard = true)
          from by
            rw [Bool.not_eq_true, hasShard_eq_false_iff]
            exact ⟨hn2m, fun hc => hn2r (List.mem_of_mem_filter hc)⟩)]
        rw [if_neg (show ¬((swapServerRole.replicas.filter (fun x => x ≠ swapShard)).length =
            2 ^ 64 - 1 ∧ 0 < (0 : Nat)) from fun hc => by omega)]
        rw [hsi1]
      rw [ha1] at h
      dsimp only at h
      rw [setRole_setRole_same] at h
      have hne₂ : id ≠ swapID := fun hc => hne hc.symm
      have hl2 : lookupRole (setRole serverRoles swapID
          { swapServerRole with
            replicas := (swapServerRole.replicas.filter (fun x => x ≠ swapShard)) ++ [shard] })
          id = some serverRole := by
        rw [lookupRole_setRole_ne _ hne₂]
        exact hl
      have hlen1 : serverRole.replicas.length < q := Nat.lt_of_not_le h1
      have hsi2 : setInsert serverRole.replicas swapShard =
          serverRole.replicas ++ [swapShard] := by
        unfold setInsert
        rw [if_neg hn1r]
      have ha2 : assignReplica (setRole serverRoles swapID
            { swapServerRole with
              replicas := (swapServerRole.replicas.filter (fun x => x ≠ swapShard)) ++ [shard] })
          masters
          (fun s => if s = shard then
              ((removeReplica replicas swapShard swapID) shard) ++ [swapID]
            else (removeReplica replicas swapShard swapID) s)
          id swapShard q 0 =
          some (setRole (setRole serverRoles swapID
              { swapServerRole with
                replicas :=
                  (swapServerRole.replicas.filter (fun x => x ≠ swapShard)) ++ [shard] }) id
            { serverRole with replicas := serverRole.replicas ++ [swapShard] },
            fun s => if s = swapShard then
                ((fun s => if s = shard then
                    ((removeReplica replicas swapShard swapID) shard) ++ [swapID]
                  else (removeReplica replicas swapShard swapID) s) swapShard) ++ [id]
              else ((fun s => if s = shard then
                    ((removeReplica replicas swapShard swapID) shard) ++ [swapID]
                  else (removeReplica replicas swapShard swapID) s) s),
            0) := by
        unfold assignReplica
        rw [hl2]
        dsimp only
        rw [if_neg (show ¬(q < serverRole.replicas.length) by omega)]
        rw [if_neg (show ¬(serverRole.replicas.length = q ∧ (0 : Nat) = 0) from
          fun hc => by omega)]
        rw [if_neg (show ¬(hasShard serverRole swapShard = true) from by
          rw [Bool.not_eq_true, hasShard_eq_false_iff]
          exact ⟨hn1m, hn1r⟩)]
        rw [if_neg (show ¬(serverRole.replicas.length = q ∧ 0 < (0 : Nat)) from
          fun hc => by omega)]
        rw [hsi2]
      rw [ha2] at h
      dsimp only at h
      injection h with h4
      refine ⟨serverRole, swapID, swapServerRole, swapShard, rfl, hlen1, hmem, hne, hrep,
        hn2m, hn2r, hn1m, hn1r, hfl, ?_⟩
      rw [← h4]

theorem masterStep_some {q : Nat} {cands : Nat → List String} {shard : Nat}
    {st st₂ : MState} (h : masterStep q cands shard st = some st₂) :
    ∃ id serverRole, lookupRole st.roles id = some serverRole ∧
      serverRole.masters.length ≤ q ∧
      (serverRole.masters.length = q → 0 < st.rem) ∧
      shard ∉ serverRole.masters ∧ shard ∉ serverRole.replicas ∧
      st₂.roles = setRole st.roles id
        { serverRole with masters := serverRole.masters ++ [shard] } ∧
      st₂.rem = (if serverRole.masters.length = q then st.rem - 1 else st.rem) := by
  obtain ⟨id, _, he⟩ := tryMasterIds_some h
  obtain ⟨r, hl, h1, h2, h3, h4, h5, _, h7⟩ := assignMaster_some he
  exact ⟨id, r, hl, h1, h2, h3, h4, h5, h7⟩

theorem masterStep_full {q r0 : Nat} {keys : List String} {cands : Nat → List String}
    {shard : Nat} {st st₂ : MState} (hknd : keys.Nodup)
    (h : masterStep q cands shard st = some st₂) (hI : MInv q r0 keys st) :
    MInv q r0 keys st₂ ∧
    sumMasters st₂.roles = sumMasters st.roles + 1 ∧
    ∀ b, masterShardCount st₂.roles b =
      masterShardCount st.roles b + (if b = shard then 1 else 0) := by
  obtain ⟨hkeys, hlen, hex, hmnd, hrempty⟩ := hI
  obtain ⟨id, r, hl, h1, h2, h3, h4, hroles, hrem⟩ := masterStep_some h
  have hndkeys : (keysOf st.roles).Nodup := hkeys ▸ hknd
  have hmem : (id, r) ∈ st.roles := lookupRole_mem hl
  refine ⟨⟨?_, ?_, ?_, ?_, ?_⟩, ?_, ?_⟩
  · rw [hroles, keysOf_setRole, hkeys]
  · rw [hroles]
    apply forall_mem_setRole
    · show (r.masters ++ [shard]).length ≤ q + 1
      rw [List.length_append, List.length_singleton]
      omega
    · exact hlen
  · have hc := countP_setRole (fun p => decide (p.2.masters.length = q + 1)) hndkeys hl
      (r := { r with masters := r.masters ++ [shard] })
    dsimp only at hc
    rw [hroles]
    unfold exceedMasters at hex ⊢
    by_cases he : r.masters.length = q
    · have h0 : 0 < st.rem := h2 he
      rw [if_pos he] at hrem
      rw [if_neg (show ¬(decide (r.masters.length = q + 1) = true) from by
          simp only [decide_eq_true_eq]
          omega),
        if_pos (show decide ((r.masters ++ [shard]).length = q + 1) = true from by
          simp only [decide_eq_true_eq, List.length_append, List.length_singleton]
          omega)] at hc
      omega
    · rw [if_neg he] at hrem
      rw [if_neg (show ¬(decide (r.masters.length = q + 1) = true) from by
          simp only [decide_eq_true_eq]
          omega),
        if_neg (show ¬(decide ((r.masters ++ [shard]).length = q + 1) = true) from by
          simp only [decide_eq_true_eq, List.length_append, List.length_singleton]
          omega)] at hc
      omega
  · rw [hroles]
    apply forall_mem_setRole
    · exact nodup_append_singleton (hmnd _ hmem) h3
    · exact hmnd
  · rw [hroles]
    apply forall_mem_setRole
    · exact hrempty (id, r) hmem
    · exact hrempty
  · have hs := sumBy_setRole (fun sr => sr.masters.length) hndkeys hl
      (r := { r with masters := r.masters ++ [shard] })
    dsimp only at hs
    rw [List.length_append, List.length_singleton] at hs
    rw [hroles]
    unfold sumMasters
    omega
  · intro b
    have hc := countP_setRole (fun p => decide (b ∈ p.2.masters)) hndkeys hl
      (r := { r with masters := r.masters ++ [shard] })
    dsimp only at hc
    rw [hroles]
    unfold masterShardCount
    by_cases hb : b = shard
    · rw [if_pos hb]
      rw [if_neg (show ¬(decide (b ∈ r.masters) = true) from by
          simp only [decide_eq_true_eq]
          rw [hb]
          exact h3),
        if_pos (show decide (b ∈ r.masters ++ [shard]) = true from by
          simp only [decide_eq_true_eq, List.mem_append, List.mem_singleton]
          exact Or.inr hb)] at hc
      omega
    · have hmm : (decide (b ∈ r.masters ++ [shard])) = (decide (b ∈ r.masters)) := by
        rw [decide_eq_decide, List.mem_append, List.mem_singleton]
        exact ⟨fun hor => hor.elim (fun hx => hx) (fun hx => absurd hx hb), Or.inl⟩
      rw [hmm] at hc
      rw [if_neg hb]
      omega

theorem masterPass_inv {q r0 : Nat} {keys : List String} {cands : Nat → List String}
    {L : List Nat} {st st₂ : MState} (hknd : keys.Nodup)
    (h : masterPass q cands L st = some st₂) (hI : MInv q r0 keys st) :
    MInv q r0 keys st₂ := by
  unfold masterPass at h
  exact optFold_inv (f := masterStep q cands) (I := MInv q r0 keys)
    (fun a s s₂ hs hIs => (masterStep_full hknd hs hIs).1) h hI

theorem masterPass_sum {q r0 : Nat} {keys : List String} {cands : Nat → List String}
    {L : List Nat} {st st₂ : MState} (hknd : keys.Nodup)
    (h : masterPass q cands L st = some st₂) (hI : MInv q r0 keys st) :
    sumMasters st₂.roles = sumMasters st.roles + L.length := by
  unfold masterPass at h
  have hh := optFold_add (f := masterStep q cands) (I := MInv q r0 keys)
    (g := fun s => sumMasters s.roles) (c := 1)
    (fun a s s₂ hs hIs => ⟨(masterStep_full hknd hs hIs).1,
      (masterStep_full hknd hs hIs).2.1⟩) h hI
  dsimp only at hh
  omega

theorem masterPass_count {q r0 : Nat} {keys : List String} {cands : Nat → List String}
    {L : List Nat} {st st₂ : MState} (hknd : keys.Nodup) (hLnd : L.Nodup)
    (h : masterPass q cands L st = some st₂) (hI : MInv q r0 keys st) :
    ∀ b, masterShardCount st₂.roles b =
      masterShardCount st.roles b + (if b ∈ L then 1 else 0) := by
  unfold masterPass at h
  exact optFold_count (f := masterStep q cands) (I := MInv q r0 keys)
    (g := fun b s => masterShardCount s.roles b)
    (fun a s s₂ hs hIs => ⟨(masterStep_full hknd hs hIs).1,
      (masterStep_full hknd hs hIs).2.2⟩) h hI hLnd

theorem replicaStep_cases {q : Nat} {cands : Nat → List String} {live : List String}
    {shard : Nat} {st st₂ : RState} (h : replicaStep q cands live shard st = some st₂) :
    tryReplicaIds q shard (cands shard) st = some st₂ ∨
    trySwapIds q shard live st = some st₂ := by
  unfold replicaStep at h
  cases ht : tryReplicaIds q shard (cands shard) st with
  | some s =>
    rw [ht] at h
    exact Or.inl h
  | none =>
    rw [ht] at h
    exact Or.inr h

theorem replicaStep_full {q r0 : Nat} {keys : List String} {cands : Nat → List String}
    {live : List String} {shard : Nat} {st st₂ : RState}
    (hknd : keys.Nodup) (hq : q + 2 ≤ 2 ^ 64)
    (h : replicaStep q cands live shard st = some st₂) (hI : RInv q r0 keys st) :
    RInv q r0 keys st₂ ∧
    sumReplicas st₂.roles = sumReplicas st.roles + 1 ∧
    st₂.roles.map (fun p => (p.1, p.2.masters)) =
      st.roles.map (fun p => (p.1, p.2.masters)) := by
  obtain ⟨hkeys, hlen, hex, hrnd⟩ := hI
  have hndkeys : (keysOf st.roles).Nodup := hkeys ▸ hknd
  rcases replicaStep_cases h with hcase | hcase
  · obtain ⟨-, id, hmem, he⟩ := tryReplicaIds_some hcase
    obtain ⟨r, hl, h1, h2, h3, h4, hroles, -, hrem⟩ := assignReplica_some he
    dsimp only at hroles hrem
    have hmemr : (id, r) ∈ st.roles := lookupRole_mem hl
    refine ⟨⟨?_, ?_, ?_, ?_⟩, ?_, ?_⟩
    · rw [hroles, keysOf_setRole, hkeys]
    · rw [hroles]
      apply forall_mem_setRole
      · show (r.replicas ++ [shard]).length ≤ q + 1
        rw [List.length_append, List.length_singleton]
        omega
      · exact hlen
    · have hc := countP_setRole (fun p => decide (p.2.replicas.length = q + 1)) hndkeys hl
        (r := { r with replicas := r.replicas ++ [shard] })
      dsimp only at hc
      rw [hroles]
      unfold exceedReplicas at hex ⊢
      by_cases hqe : r.replicas.length = q
      · have h0 : 0 < st.rem := h2 hqe
        rw [if_pos hqe] at hrem
        rw [if_neg (show ¬(decide (r.replicas.length = q + 1) = true) from by
            simp only [decide_eq_true_eq]
            omega),
          if_pos (show decide ((r.replicas ++ [shard]).length = q + 1) = true from by
            simp only [decide_eq_true_eq, List.length_append, List.length_singleton]
            omega)] at hc
        omega
      · rw [if_neg hqe] at hrem
        rw [if_neg (show ¬(decide (r.replicas.length = q + 1) = true) from by
            simp only [decide_eq_true_eq]
            omega),
          if_neg (show ¬(decide ((r.replicas ++ [shard]).length = q + 1) = true) from by
            simp only [decide_eq_true_eq, List.length_append, List.length_singleton]
            omega)] at hc
        omega
    · rw [hroles]
      apply forall_mem_setRole
      · exact nodup_append_singleton (hrnd _ hmemr) h4
      · exact hrnd
    · have hs := sumBy_setRole (fun sr => sr.replicas.length) hndkeys hl
        (r := { r with replicas := r.replicas ++ [shard] })
      dsimp only at hs
      rw [List.length_append, List.length_singleton] at hs
      rw [hroles]
      unfold sumReplicas
      omega
    · rw [hroles]
      exact projMasters_setRole (r := { r with replicas := r.replicas ++ [shard] })
        hndkeys hl rfl
  · obtain ⟨-, hrem, id, hmemid, he⟩ := trySwapIds_some hcase
    obtain ⟨r, swapID, swapRole, swapShard, hl, hlt, hmem2, hne, hrp, hn2m, hn2r, hn1m,
      hn1r, hfl, hroles⟩ := swapReplica_some hndkeys hlen hrnd hq he
    dsimp only at hroles
    have hlSwap : lookupRole st.roles swapID = some swapRole :=
      lookupRole_of_mem_nodup hndkeys hmem2
    have hmemr : (id, r) ∈ st.roles := lookupRole_mem hl
    have hne₂ : id ≠ swapID := fun hc => hne hc.symm
    have hnd1 : (keysOf (setRole st.roles swapID
        { swapRole with
          replicas := (swapRole.replicas.filter (fun x => x ≠ swapShard)) ++ [shard] })).Nodup := by
      rw [keysOf_setRole]
      exact hndkeys
    have hl1 : lookupRole (setRole st.roles swapID
        { swapRole with
          replicas := (swapRole.replicas.filter (fun x => x ≠ swapShard)) ++ [shard] }) id =
        some r := by
      rw [lookupRole_setRole_ne _ hne₂]
      exact hl
    have hAlen : ((swapRole.replicas.filter (fun x => x ≠ swapShard)) ++ [shard]).length =
        swapRole.replicas.length := by
      rw [List.length_append, List.length_singleton]
      omega
    refine ⟨⟨?_, ?_, ?_, ?_⟩, ?_, ?_⟩
    · rw [hroles, keysOf_setRole, keysOf_setRole, hkeys]
    · rw [hroles]
      apply forall_mem_setRole
      · show (r.replicas ++ [swapShard]).length ≤ q + 1
        rw [List.length_append, List.length_singleton]
        omega
      apply forall_mem_setRole
      · show ((swapRole.replicas.filter (fun x => x ≠ swapShard)) ++ [shard]).length ≤ q + 1
        rw [hAlen]
        exact hlen _ hmem2
      · exact hlen
    · have hc1 := countP_setRole (fun p => decide (p.2.replicas.length = q + 1)) hndkeys
        hlSwap
        (r := { swapRole with
          replicas := (swapRole.replicas.filter (fun x => x ≠ swapShard)) ++ [shard] })
      have hc2 := countP_setRole (fun p => decide (p.2.replicas.length = q + 1)) hnd1 hl1
        (r := { r with replicas := r.replicas ++ [swapShard] })
      dsimp only at hc1 hc2
      rw [hAlen] at hc1
      rw [hroles, hrem]
      unfold exceedReplicas at hex ⊢
      rw [if_neg (show ¬(decide (r.replicas.length = q + 1) = true) from by
          simp only [decide_eq_true_eq]
          omega),
        if_neg (show ¬(decide ((r.replicas ++ [swapShard]).length = q + 1) = true) from by
          simp only [decide_eq_true_eq, List.length_append, List.length_singleton]
          omega)] at hc2
      omega
    · rw [hroles]
      apply forall_mem_setRole
      · exact nodup_append_singleton (hrnd _ hmemr) hn1r
      apply forall_mem_setRole
      · exact nodup_append_singleton ((hrnd _ hmem2).filter _)
          (fun hc => hn2r (List.mem_of_mem_filter hc))
      · exact hrnd
    · have hs1 := sumBy_setRole (fun sr => sr.replicas.length) hndkeys hlSwap
        (r := { swapRole with
          replicas := (swapRole.replicas.filter (fun x => x ≠ swapShard)) ++ [shard] })
      have hs2 := sumBy_setRole (fun sr => sr.replicas.length) hnd1 hl1
        (r := { r with replicas := r.replicas ++ [swapShard] })
      dsimp only at hs1 hs2
      rw [hAlen] at hs1
      rw [show (r.replicas ++ [swapShard]).length = r.replicas.length + 1 from by
        rw [List.length_append, List.length_singleton]] at hs2
      rw [hroles]
      unfold sumReplicas
      omega
    · rw [hroles,
        projMasters_setRole (r := { r with replicas := r.replicas ++ [swapShard] })
          hnd1 hl1 rfl,
        projMasters_setRole (r := { swapRole with
          replicas := (swapRole.replicas.filter (fun x => x ≠ swapShard)) ++ [shard] })
          hndkeys hlSwap rfl]

theorem replicaRound_inv {q r0 : Nat} {keys : List String} {cands : Nat → List String}
    {live : List String} {L : List Nat} {st st₂ : RState}
    (hknd : keys.Nodup) (hq : q + 2 ≤ 2 ^ 64)
    (h : replicaRound q cands live L st = some st₂) (hI : RInv q r0 keys st) :
    RInv q r0 keys st₂ := by
  unfold replicaRound at h
  exact optFold_inv (f := replicaStep q cands live) (I := RInv q r0 keys)
    (fun a s s₂ hs hIs => (replicaStep_full hknd hq hs hIs).1) h hI

theorem replicaRound_sum {q r0 : Nat} {keys : List String} {cands : Nat → List String}
    {live : List String} {L : List Nat} {st st₂ : RState}
    (hknd : keys.Nodup) (hq : q + 2 ≤ 2 ^ 64)
    (h : replicaRound q cands live L st = some st₂) (hI : RInv q r0 keys st) :
    sumReplicas st₂.roles = sumReplicas st.roles + L.length := by
  unfold replicaRound at h
  have hh := optFold_add (f := replicaStep q cands live) (I := RInv q r0 keys)
    (g := fun s => sumReplicas s.roles) (c := 1)
    (fun a s s₂ hs hIs => ⟨(replicaStep_full hknd hq hs hIs).1,
      (replicaStep_full hknd hq hs hIs).2.1⟩) h hI
  dsimp only at hh
  omega

theorem replicaRound_masters {q r0 : Nat} {keys : List String} {cands : Nat → List String}
    {live : List String} {L : List Nat} {st st₂ : RState}
    (hknd : keys.Nodup) (hq : q + 2 ≤ 2 ^ 64)
    (h : replicaRound q cands live L st = some st₂) (hI : RInv q r0 keys st) :
    st₂.roles.map (fun p => (p.1, p.2.masters)) =
      st.roles.map (fun p => (p.1, p.2.masters)) := by
  unfold replicaRound at h
  have hh := optFold_inv (f := replicaStep q cands live)
    (I := fun s => RInv q r0 keys s ∧
      s.roles.map (fun p => (p.1, p.2.masters)) =
        st.roles.map (fun p => (p.1, p.2.masters)))
    (fun a s s₂ hs hIs => ⟨(replicaStep_full hknd hq hs hIs.1).1,
      ((replicaStep_full hknd hq hs hIs.1).2.2).trans hIs.2⟩) h ⟨hI, rfl⟩
  exact hh.2

theorem replicaPass_inv {q r0 : Nat} {keys : List String} {cands : Nat → List String}
    {live : List String} {L : List Nat} {numR : Nat} {st st₂ : RState}
    (hknd : keys.Nodup) (hq : q + 2 ≤ 2 ^ 64)
    (h : replicaPass q cands live L numR st = some st₂) (hI : RInv q r0 keys st) :
    RInv q r0 keys st₂ := by
  unfold replicaPass at h
  exact optFold_inv (f := fun _ s => replicaRound q cands live L s) (I := RInv q r0 keys)
    (fun a s s₂ hs hIs => replicaRound_inv hknd hq hs hIs) h hI

theorem replicaPass_sum {q r0 : Nat} {keys : List String} {cands : Nat → List String}
    {live : List String} {L : List Nat} {numR : Nat} {st st₂ : RState}
    (hknd : keys.Nodup) (hq : q + 2 ≤ 2 ^ 64)
    (h : replicaPass q cands live L numR st = some st₂) (hI : RInv q r0 keys st) :
    sumReplicas st₂.roles = sumReplicas st.roles + L.length * numR := by
  unfold replicaPass at h
  have hh := optFold_add (f := fun _ s => replicaRound q cands live L s)
    (I := RInv q r0 keys) (g := fun s => sumReplicas s.roles) (c := L.length)
    (fun a s s₂ hs hIs => ⟨replicaRound_inv hknd hq hs hIs,
      replicaRound_sum hknd hq hs hIs⟩) h hI
  dsimp only at hh
  rw [List.length_range] at hh
  exact hh

theorem replicaPass_masters {q r0 : Nat} {keys : List String} {cands : Nat → List String}
    {live : List String} {L : List Nat} {numR : Nat} {st st₂ : RState}
    (hknd : keys.Nodup) (hq : q + 2 ≤ 2 ^ 64)
    (h : replicaPass q cands live L numR st = some st₂) (hI : RInv q r0 keys st) :
    st₂.roles.map (fun p => (p.1, p.2.masters)) =
      st.roles.map (fun p => (p.1, p.2.masters)) := by
  unfold replicaPass at h
  have hh := optFold_inv (f := fun _ s => replicaRound q cands live L s)
    (I := fun s => RInv q r0 keys s ∧
      s.roles.map (fun p => (p.1, p.2.masters)) =
        st.roles.map (fun p => (p.1, p.2.masters)))
    (fun a s s₂ hs hIs => ⟨replicaRound_inv hknd hq hs hIs.1,
      (replicaRound_masters hknd hq hs hIs.1).trans hIs.2⟩) h ⟨hI, rfl⟩
  exact hh.2

theorem list_sum_le {l : List Nat} {q : Nat} (h : ∀ x ∈ l, x ≤ q + 1) :
    l.sum ≤ l.length * q + l.countP (fun x => decide (x = q + 1)) := by
  induction l with
  | nil => simp
  | cons a tl ih =>
    have ha := h a (List.mem_cons_self _ _)
    have htl := ih (fun x hx => h x (List.mem_cons_of_mem _ hx))
    rw [List.sum_cons, List.countP_cons, List.length_cons, Nat.add_mul, one_mul]
    by_cases he : a = q + 1
    · rw [if_pos (show decide (a = q + 1) = true from by simp [he])]
      omega
    · rw [if_neg (show ¬(decide (a = q + 1) = true) from by simp [he])]
      have : a ≤ q := by omega
      omega

theorem list_sum_lt {l : List Nat} {q x0 : Nat} (h : ∀ x ∈ l, x ≤ q + 1)
    (hx : x0 ∈ l) (hlt : x0 < q) :
    l.sum < l.length * q + l.countP (fun x => decide (x = q + 1)) := by
  induction l with
  | nil => simp at hx
  | cons a tl ih =>
    rw [List.sum_cons, List.countP_cons, List.length_cons, Nat.add_mul, one_mul]
    rcases List.mem_cons.mp hx with h1 | h2
    · have halt : a < q := by rw [← h1]; exact hlt
      have htl := list_sum_le (fun x hxm => h x (List.mem_cons_of_mem _ hxm))
      rw [if_neg (show ¬(decide (a = q + 1) = true) from by
        simp only [decide_eq_true_eq]
        omega)]
      omega
    · have htl := ih (fun x hxm => h x (List.mem_cons_of_mem _ hxm)) h2
      have ha := h a (List.mem_cons_self _ _)
      by_cases he : a = q + 1
      · rw [if_pos (show decide (a = q + 1) = true from by simp [he])]
        omega
      · rw [if_neg (show ¬(decide (a = q + 1) = true) from by simp [he])]
        have : a ≤ q := by omega
        omega

theorem balance_bounds {l : List Nat} {q b c : Nat}
    (hle : ∀ x ∈ l, x ≤ q + 1)
    (hex : l.countP (fun x => decide (x = q + 1)) + c = b)
    (hsum : l.sum = l.length * q + b) :
    ∀ x ∈ l, q ≤ x ∧ x ≤ q + 1 ∧ (b = 0 → x = q) := by
  intro x hx
  have h1 : q ≤ x := by
    by_contra hc
    push_neg at hc
    have := list_sum_lt hle hx hc
    omega
  have h2 : x ≤ q + 1 := hle x hx
  refine ⟨h1, h2, ?_⟩
  intro hr0
  by_cases he : x = q + 1
  · exfalso
    have hpos : 0 < l.countP (fun x => decide (x = q + 1)) :=
      List.countP_pos_iff.mpr ⟨x, hx, by simp [he]⟩
    omega
  · omega

theorem ceil_char {N S : Nat} (hS : 0 < S) :
    (N + S - 1) / S = N / S + (if N % S = 0 then 0 else 1) := by
  have hdm := Nat.div_add_mod N S
  by_cases hr : N % S = 0
  · rw [if_pos hr]
    have h1 : N + S - 1 = S * (N / S) + (S - 1) := by omega
    rw [h1, Nat.mul_add_div hS, Nat.div_eq_of_lt (show S - 1 < S by omega), Nat.add_zero]
  · rw [if_neg hr]
    have hrlt : N % S < S := Nat.mod_lt _ hS
    have h1 : N + S - 1 = S * (N / S) + (N % S + S - 1) := by omega
    rw [h1, Nat.mul_add_div hS]
    have h2 : 1 ≤ (N % S + S - 1) / S := by
      rw [Nat.le_div_iff_mul_le hS, Nat.one_mul]
      omega
    have h3 : (N % S + S - 1) / S < 2 := by
      rw [Nat.div_lt_iff_lt_mul hS]
      omega
    omega

theorem keysOf_initRoles (v : Int) (ss : List ServerState) :
    keysOf (initRoles v ss) = liveIdsOf ss := by
  induction ss with
  | nil => rfl
  | cons a tl ih =>
    simp only [keysOf, initRoles, liveIdsOf, List.map_cons] at ih ⊢
    rw [ih]

theorem mem_initRoles {v : Int} {ss : List ServerState} {p : String × ServerRole}
    (h : p ∈ initRoles v ss) :
    p.2.masters = [] ∧ p.2.replicas = [] ∧ p.2.version = v ∧ p.2.id = p.1 := by
  unfold initRoles at h
  obtain ⟨a, _, he⟩ := List.mem_map.mp h
  rw [← he]
  exact ⟨rfl, rfl, rfl, rfl⟩

theorem MInv_init (q r0 : Nat) (v : Int) (ss : List ServerState) :
    MInv q r0 (liveIdsOf ss) ⟨initRoles v ss, fun _ => none, r0⟩ := by
  refine ⟨keysOf_initRoles v ss, ?_, ?_, ?_, ?_⟩
  · intro p hp
    rw [(mem_initRoles hp).1]
    simp
  · show exceedMasters q (initRoles v ss) + r0 = r0
    have hz : exceedMasters q (initRoles v ss) = 0 := by
      unfold exceedMasters
      rw [List.countP_eq_zero]
      intro p hp
      rw [(mem_initRoles hp).1]
      simp
    omega
  · intro p hp
    rw [(mem_initRoles hp).1]
    simp
  · intro p hp
    exact (mem_initRoles hp).2.1

theorem sumMasters_initRoles (v : Int) (ss : List ServerState) :
    sumMasters (initRoles v ss) = 0 := by
  unfold sumMasters
  apply List.sum_eq_zero
  intro x hx
  obtain ⟨p, hp, he⟩ := List.mem_map.mp hx
  rw [← he, (mem_initRoles hp).1]
  rfl

theorem masterShardCount_initRoles (v : Int) (ss : List ServerState) (s : Nat) :
    masterShardCount (initRoles v ss) s = 0 := by
  unfold masterShardCount
  rw [List.countP_eq_zero]
  intro p hp
  rw [(mem_initRoles hp).1]
  simp

/-- Projection transfer: the per-entry master data of two role maps with equal
master projections satisfies the same per-entry predicates. -/
theorem forall_masters_of_proj_eq {rs₁ rs₂ : Roles}
    (hproj : rs₂.map (fun p => (p.1, p.2.masters)) = rs₁.map (fun p => (p.1, p.2.masters)))
    {P : List Nat → Prop} (h : ∀ p ∈ rs₁, P p.2.masters) : ∀ p ∈ rs₂, P p.2.masters := by
  intro p hp
  have hm : (p.1, p.2.masters) ∈ rs₂.map (fun p => (p.1, p.2.masters)) :=
    List.mem_map_of_mem _ hp
  rw [hproj] at hm
  obtain ⟨p₂, hp₂, he⟩ := List.mem_map.mp hm
  have : p₂.2.masters = p.2.masters := congrArg Prod.snd he
  rw [← this]
  exact h p₂ hp₂

theorem masterShardCount_of_proj_eq {rs₁ rs₂ : Roles}
    (hproj : rs₂.map (fun p => (p.1, p.2.masters)) = rs₁.map (fun p => (p.1, p.2.masters)))
    (s : Nat) : masterShardCount rs₂ s = masterShardCount rs₁ s := by
  unfold masterShardCount
  have h2 : rs₂.countP (fun p => decide (s ∈ p.2.masters)) =
      (rs₂.map (fun p => (p.1, p.2.masters))).countP (fun pr => decide (s ∈ pr.2)) := by
    rw [List.countP_map]
    rfl
  have h1 : rs₁.countP (fun p => decide (s ∈ p.2.masters)) =
      (rs₁.map (fun p => (p.1, p.2.masters))).countP (fun pr => decide (s ∈ pr.2)) := by
    rw [List.countP_map]
    rfl
  rw [h2, h1, hproj]

theorem sumMasters_of_proj_eq {rs₁ rs₂ : Roles}
    (hproj : rs₂.map (fun p => (p.1, p.2.masters)) = rs₁.map (fun p => (p.1, p.2.masters))) :
    sumMasters rs₂ = sumMasters rs₁ := by
  unfold sumMasters
  have h2 : rs₂.map (fun p => p.2.masters.length) =
      (rs₂.map (fun p => (p.1, p.2.masters))).map (fun pr => pr.2.length) := by
    rw [List.map_map]
    rfl
  have h1 : rs₁.map (fun p => p.2.masters.length) =
      (rs₁.map (fun p => (p.1, p.2.masters))).map (fun pr => pr.2.length) := by
    rw [List.map_map]
    rfl
  rw [h2, h1, hproj]

theorem exceedMasters_of_proj_eq {rs₁ rs₂ : Roles} (q : Nat)
    (hproj : rs₂.map (fun p => (p.1, p.2.masters)) = rs₁.map (fun p => (p.1, p.2.masters))) :
    exceedMasters q rs₂ = exceedMasters q rs₁ := by
  unfold exceedMasters
  have h2 : rs₂.countP (fun p => decide (p.2.masters.length = q + 1)) =
      (rs₂.map (fun p => (p.1, p.2.masters))).countP
        (fun pr => decide (pr.2.length = q + 1)) := by
    rw [List.countP_map]
    rfl
  have h1 : rs₁.countP (fun p => decide (p.2.masters.length = q + 1)) =
      (rs₁.map (fun p => (p.1, p.2.masters))).countP
        (fun pr => decide (pr.2.length = q + 1)) := by
    rw [List.countP_map]
    rfl
  rw [h2, h1, hproj]

theorem keysOf_of_proj_eq {rs₁ rs₂ : Roles}
    (hproj : rs₂.map (fun p => (p.1, p.2.masters)) = rs₁.map (fun p => (p.1, p.2.masters))) :
    keysOf rs₂ = keysOf rs₁ := by
  have h2 : keysOf rs₂ = (rs₂.map (fun p => (p.1, p.2.masters))).map (fun pr => pr.1) := by
    unfold keysOf
    rw [List.map_map]
    rfl
  have h1 : keysOf rs₁ = (rs₁.map (fun p => (p.1, p.2.masters))).map (fun pr => pr.1) := by
    unfold keysOf
    rw [List.map_map]
    rfl
  rw [h2, h1, hproj]

theorem runPasses_some {numShards numReplicas : Nat} {t : AssignTracker}
    {ss : List ServerState} {st : RState}
    (h : runPasses numShards numReplicas t ss = some st) :
    ∃ st₁, masterPass (numShards / ss.length)
        (candidates t.oldMasters t.oldReplicas (shardLocationsOf ss) (liveIdsOf ss))
        (List.range numShards)
        ⟨initRoles t.version ss, fun _ => none, numShards % ss.length⟩ = some st₁ ∧
      replicaPass ((numShards * numReplicas) / ss.length)
        (candidates t.oldMasters t.oldReplicas (shardLocationsOf ss) (liveIdsOf ss))
        (liveIdsOf ss) (List.range numShards) numReplicas
        ⟨st₁.roles, st₁.masters, fun _ => [], (numShards * numReplicas) % ss.length⟩ =
        some st := by
  unfold runPasses at h
  dsimp only at h
  cases hm : masterPass (numShards / ss.length)
      (candidates t.oldMasters t.oldReplicas (shardLocationsOf ss) (liveIdsOf ss))
      (List.range numShards)
      ⟨initRoles t.version ss, fun _ => none, numShards % ss.length⟩ with
  | none => rw [hm] at h; cases h
  | some st₁ =>
    rw [hm] at h
    exact ⟨st₁, rfl, h⟩

/-- All the facts about a successful run of both assignment passes that the
published-roles invariants need. -/
theorem runPasses_results {numShards numReplicas : Nat} {t : AssignTracker}
    {ss : List ServerState} {st : RState}
    (hnd : (liveIdsOf ss).Nodup)
    (hS : 0 < ss.length)
    (hqr : (numShards * numReplicas) / ss.length + 2 ≤ 2 ^ 64)
    (h : runPasses numShards numReplicas t ss = some st) :
    keysOf st.roles = liveIdsOf ss ∧
    (∀ s, masterShardCount st.roles s = (if s ∈ List.range numShards then 1 else 0)) ∧
    (∀ p ∈ st.roles,
      numShards / ss.length ≤ p.2.masters.length ∧
      p.2.masters.length ≤ numShards / ss.length + 1 ∧
      (numShards % ss.length = 0 → p.2.masters.length = numShards / ss.length)) ∧
    (∀ p ∈ st.roles,
      (numShards * numReplicas) / ss.length ≤ p.2.replicas.length ∧
      p.2.replicas.length ≤ (numShards * numReplicas) / ss.length + 1 ∧
      ((numShards * numReplicas) % ss.length = 0 →
        p.2.replicas.length = (numShards * numReplicas) / ss.length)) := by
  obtain ⟨st₁, h₁, h₂⟩ := runPasses_some h
  have hMinit := MInv_init (numShards / ss.length) (numShards % ss.length)
    t.version ss
  have hM := masterPass_inv hnd h₁ hMinit
  obtain ⟨hMkeys, hMlen, hMex, hMnd, hMrepe⟩ := hM
  have hMsum := masterPass_sum hnd h₁ hMinit
  rw [sumMasters_initRoles, List.length_range, Nat.zero_add] at hMsum
  have hMcount := masterPass_count hnd (List.nodup_range _) h₁ hMinit
  have hRinit : RInv ((numShards * numReplicas) / ss.length)
      ((numShards * numReplicas) % ss.length) (liveIdsOf ss)
      ⟨st₁.roles, st₁.masters, fun _ => [], (numShards * numReplicas) % ss.length⟩ := by
    refine ⟨hMkeys, ?_, ?_, ?_⟩
    · intro p hp
      rw [hMrepe p hp]
      simp
    · show exceedReplicas ((numShards * numReplicas) / ss.length) st₁.roles +
          ((numShards * numReplicas) % ss.length) = (numShards * numReplicas) % ss.length
      have hz : exceedReplicas ((numShards * numReplicas) / ss.length) st₁.roles = 0 := by
        unfold exceedReplicas
        rw [List.countP_eq_zero]
        intro p hp
        rw [hMrepe p hp]
        simp
      omega
    · intro p hp
      rw [hMrepe p hp]
      exact List.nodup_nil
  have hR := replicaPass_inv hnd hqr h₂ hRinit
  obtain ⟨hRkeys, hRlen, hRex, hRnd⟩ := hR
  have hRsum := replicaPass_sum hnd hqr h₂ hRinit
  have hRm := replicaPass_masters hnd hqr h₂ hRinit
  dsimp only at hRkeys hRlen hRex hRnd hRsum hRm
  have hRsumz : sumReplicas st₁.roles = 0 := by
    unfold sumReplicas
    apply List.sum_eq_zero
    intro x hx
    obtain ⟨p, hp, he⟩ := List.mem_map.mp hx
    rw [← he, hMrepe p hp]
    rfl
  rw [hRsumz, List.length_range, Nat.zero_add] at hRsum
  have hlenroles : st.roles.length = ss.length := by
    have e1 : st.roles.length = (keysOf st.roles).length := by
      unfold keysOf
      rw [List.length_map]
    rw [e1, hRkeys]
    unfold liveIdsOf
    rw [List.length_map]
  refine ⟨hRkeys, ?_, ?_, ?_⟩
  · intro s
    rw [masterShardCount_of_proj_eq hRm, hMcount s, masterShardCount_initRoles]
    rw [Nat.zero_add]
  · -- master balance on the final roles
    have hle : ∀ p ∈ st.roles, p.2.masters.length ≤ numShards / ss.length + 1 :=
      forall_masters_of_proj_eq hRm
        (P := fun l => l.length ≤ numShards / ss.length + 1) hMlen
    have hsumf : sumMasters st.roles = numShards := by
      rw [sumMasters_of_proj_eq hRm, hMsum]
    have hexf : exceedMasters (numShards / ss.length) st.roles + st₁.rem =
        numShards % ss.length := by
      rw [exceedMasters_of_proj_eq _ hRm]
      exact hMex
    have hdm := Nat.div_add_mod numShards ss.length
    have hbal := balance_bounds
      (l := st.roles.map (fun p => p.2.masters.length))
      (q := numShards / ss.length) (b := numShards % ss.length) (c := st₁.rem)
      (by
        intro x hx
        obtain ⟨p, hp, he⟩ := List.mem_map.mp hx
        rw [← he]
        exact hle p hp)
      (by
        rw [List.countP_map]
        exact hexf)
      (by
        show (st.roles.map (fun p => p.2.masters.length)).sum = _
        have e1 : (st.roles.map (fun p => p.2.masters.length)).sum = numShards := hsumf
        have e2 : (st.roles.map (fun p => p.2.masters.length)).length = ss.length := by
          rw [List.length_map, hlenroles]
        rw [e1, e2]
        exact hdm.symm)
    intro p hp
    have := hbal _ (List.mem_map_of_mem (fun p => p.2.masters.length) hp)
    exact this
  · -- replica balance on the final roles
    have hdm := Nat.div_add_mod (numShards * numReplicas) ss.length
    have hbal := balance_bounds
      (l := st.roles.map (fun p => p.2.replicas.length))
      (q := (numShards * numReplicas) / ss.length)
      (b := (numShards * numReplicas) % ss.length) (c := st.rem)
      (by
        intro x hx
        obtain ⟨p, hp, he⟩ := List.mem_map.mp hx
        rw [← he]
        exact hRlen p hp)
      (by
        rw [List.countP_map]
        exact hRex)
      (by
        show (st.roles.map (fun p => p.2.replicas.length)).sum = _
        have e1 : (st.roles.map (fun p => p.2.replicas.length)).sum =
            numShards * numReplicas := hRsum
        have e2 : (st.roles.map (fun p => p.2.replicas.length)).length = ss.length := by
          rw [List.length_map, hlenroles]
        rw [e1, e2]
        exact hdm.symm)
    intro p hp
    exact hbal _ (List.mem_map_of_mem (fun p => p.2.replicas.length) hp)

theorem callback_publish {numShards numReplicas : Nat} {t : AssignTracker}
    {inp : AssignInput} {eff : CallbackEffects} {pub : Publication}
    (h : assignRolesCallback numShards numReplicas t inp = .ok eff)
    (ho : eff.outcome = .publish pub) :
    0 < inp.serverStates.length ∧
    ∃ st, runPasses numShards numReplicas t inp.serverStates = some st ∧
      pub.roles = st.roles ∧
      pub.addresses = buildAddresses numShards st.roles (addrOfState inp.serverStates) ∧
      pub.version = t.version := by
  unfold assignRolesCallback at h
  by_cases h0 : inp.serverStates.length = 0
  · rw [if_pos h0] at h
    injection h with h4
    rw [← h4] at ho
    cases ho
  rw [if_neg h0] at h
  dsimp only at h
  by_cases hsame : sameServers t.oldServers (liveIdsOf inp.serverStates) = true
  · rw [if_pos hsame] at h
    injection h with h4
    rw [← h4] at ho
    cases ho
  rw [if_neg hsame] at h
  cases hrp : runPasses numShards numReplicas t inp.serverStates with
  | none =>
    rw [hrp] at h
    injection h with h4
    rw [← h4] at ho
    cases ho
  | some st =>
    rw [hrp] at h
    dsimp only at h
    injection h with h4
    rw [← h4] at ho
    dsimp only at ho
    injection ho with h5
    refine ⟨Nat.pos_of_ne_zero h0, st, rfl, ?_, ?_, ?_⟩
    · rw [← h5]
    · rw [← h5]
    · rw [← h5]

theorem bounds_to_floor_ceil {x N S : Nat} (hS : 0 < S)
    (h1 : N / S ≤ x) (h2 : x ≤ N / S + 1) (h3 : N % S = 0 → x = N / S) :
    x = N / S ∨ x = (N + S - 1) / S := by
  rw [ceil_char hS]
  by_cases hr : N % S = 0
  · rw [if_pos hr]
    exact Or.inl (h3 hr)
  · rw [if_neg hr]
    omega

/-- C2.  After every successful assigner publication (a watch callback over a
non-empty server-state snapshot that reaches the publication step), for every
shard `s` in `[0, N)` exactly one published `ServerRole` at the new version
contains `s` in its masters set.  (The two side conditions say that the
decoded snapshot has distinct server ids and that the replica quota fits in a
`uint64`, both guaranteed in the source.) -/
theorem C2_unique_master_per_shard
    {numShards numReplicas : Nat} {t : AssignTracker} {inp : AssignInput}
    {eff : CallbackEffects} {pub : Publication} {s : Nat}
    (hnd : (liveIdsOf inp.serverStates).Nodup)
    (hw : numShards * numReplicas + 2 ≤ 2 ^ 64)
    (h : assignRolesCallback numShards numReplicas t inp = .ok eff)
    (ho : eff.outcome = .publish pub)
    (hs : s < numShards) :
    pub.roles.countP (fun p => decide (s ∈ p.2.masters)) = 1 := by
  obtain ⟨hpos, st, hrp, hroles, -, -⟩ := callback_publish h ho
  have hqr : (numShards * numReplicas) / inp.serverStates.length + 2 ≤ 2 ^ 64 := by
    have := Nat.div_le_self (numShards * numReplicas) inp.serverStates.length
    omega
  obtain ⟨-, hcount, -, -⟩ := runPasses_results hnd hpos hqr hrp
  have hc := hcount s
  rw [if_pos (List.mem_range.mpr hs)] at hc
  rw [hroles]
  exact hc

/-- C3.  After every successful assigner publication with `S` live servers,
every published `ServerRole` has a master count in `{⌊N/S⌋, ⌈N/S⌉}` and a
replica count in `{⌊NR/S⌋, ⌈NR/S⌉}` (ceilings written `(x + S - 1) / S`),
including when the replica pass resorted to the swap step. -/
theorem C3_balanced_role_counts
    {numShards numReplicas : Nat} {t : AssignTracker} {inp : AssignInput}
    {eff : CallbackEffects} {pub : Publication} {p : String × ServerRole}
    (hnd : (liveIdsOf inp.serverStates).Nodup)
    (hw : numShards * numReplicas + 2 ≤ 2 ^ 64)
    (h : assignRolesCallback numShards numReplicas t inp = .ok eff)
    (ho : eff.outcome = .publish pub)
    (hp : p ∈ pub.roles) :
    (p.2.masters.length = numShards / inp.serverStates.length ∨
      p.2.masters.length =
        (numShards + inp.serverStates.length - 1) / inp.serverStates.length) ∧
    (p.2.replicas.length = (numShards * numReplicas) / inp.serverStates.length ∨
      p.2.replicas.length =
        (numShards * numReplicas + inp.serverStates.length - 1) /
          inp.serverStates.length) := by
  obtain ⟨hpos, st, hrp, hroles, -, -⟩ := callback_publish h ho
  have hqr : (numShards * numReplicas) / inp.serverStates.length + 2 ≤ 2 ^ 64 := by
    have := Nat.div_le_self (numShards * numReplicas) inp.serverStates.length
    omega
  obtain ⟨-, -, hmb, hrb⟩ := runPasses_results hnd hpos hqr hrp
  rw [hroles] at hp
  obtain ⟨hm1, hm2, hm3⟩ := hmb p hp
  obtain ⟨hr1, hr2, hr3⟩ := hrb p hp
  exact ⟨bounds_to_floor_ceil hpos hm1 hm2 hm3, bounds_to_floor_ceil hpos hr1 hr2 hr3⟩

/-- C10.  The three assignment primitives assign a shard only to an id that is
a key of the roles map built from the snapshot (they return `false`, i.e.
`none`, for any other id); consequently every role record published at a
version belongs to a server that was live in the snapshot that triggered the
publication, and exactly one role record is written per live server. -/
theorem C10_roles_only_for_live_servers
    {numShards numReplicas : Nat} {t : AssignTracker} {inp : AssignInput}
    {eff : CallbackEffects} {pub : Publication}
    (hnd : (liveIdsOf inp.serverStates).Nodup)
    (hw : numShards * numReplicas + 2 ≤ 2 ^ 64)
    (h : assignRolesCallback numShards numReplicas t inp = .ok eff)
    (ho : eff.outcome = .publish pub) :
    (∀ rs m id shard q rem, lookupRole rs id = none →
      assignMaster rs m id shard q rem = none) ∧
    (∀ rs m rep id shard q rem, lookupRole rs id = none →
      assignReplica rs m rep id shard q rem = none) ∧
    (∀ rs m rep id shard q, lookupRole rs id = none →
      swapReplica rs m rep id shard q = none) ∧
    pub.roles.map (fun p => p.1) = inp.serverStates.map (fun ss => ss.id) ∧
    (pub.roles.map (fun p => p.1)).Nodup := by
  obtain ⟨hpos, st, hrp, hroles, -, -⟩ := callback_publish h ho
  have hqr : (numShards * numReplicas) / inp.serverStates.length + 2 ≤ 2 ^ 64 := by
    have := Nat.div_le_self (numShards * numReplicas) inp.serverStates.length
    omega
  obtain ⟨hkeys, -, -, -⟩ := runPasses_results hnd hpos hqr hrp
  refine ⟨?_, ?_, ?_, ?_, ?_⟩
  · intro rs m id shard q rem hl
    unfold assignMaster
    rw [hl]
  · intro rs m rep id shard q rem hl
    unfold assignReplica
    rw [hl]
  · intro rs m rep id shard q hl
    unfold swapReplica
    rw [hl]
  · rw [hroles]
    exact hkeys
  · rw [hroles]
    show (keysOf st.roles).Nodup
    rw [hkeys]
    exact hnd

theorem C2_witness :
    (publicationOf (effectsOf (assignRolesCallback 4 1 wTracker wInput)).outcome).roles.countP
      (fun p => decide (2 ∈ p.2.masters)) = 1 := by
  have h : assignRolesCallback 4 1 wTracker wInput =
      .ok (effectsOf (assignRolesCallback 4 1 wTracker wInput)) := rfl
  have ho : (effectsOf (assignRolesCallback 4 1 wTracker wInput)).outcome =
      .publish (publicationOf
        (effectsOf (assignRolesCallback 4 1 wTracker wInput)).outcome) := rfl
  exact C2_unique_master_per_shard (by decide) (by norm_num) h ho (by norm_num)

theorem C3_witness :
    (("a", (⟨"a", 0, [0, 1], [2, 3]⟩ : ServerRole)) : String × ServerRole).2.masters.length =
        4 / wInput.serverStates.length ∨
      (("a", (⟨"a", 0, [0, 1], [2, 3]⟩ : ServerRole)) : String × ServerRole).2.masters.length =
        (4 + wInput.serverStates.length - 1) / wInput.serverStates.length := by
  have h : assignRolesCallback 4 1 wTracker wInput =
      .ok (effectsOf (assignRolesCallback 4 1 wTracker wInput)) := rfl
  have ho : (effectsOf (assignRolesCallback 4 1 wTracker wInput)).outcome =
      .publish (publicationOf
        (effectsOf (assignRolesCallback 4 1 wTracker wInput)).outcome) := rfl
  exact (C3_balanced_role_counts (by decide) (by norm_num) h ho (by decide)).1

theorem C10_witness :
    (publicationOf (effectsOf (assignRolesCallback 4 1 wTracker wInput)).outcome).roles.map
        (fun p => p.1) =
      wInput.serverStates.map (fun ss => ss.id) := by
  have h : assignRolesCallback 4 1 wTracker wInput =
      .ok (effectsOf (assignRolesCallback 4 1 wTracker wInput)) := rfl
  have ho : (effectsOf (assignRolesCallback 4 1 wTracker wInput)).outcome =
      .publish (publicationOf
        (effectsOf (assignRolesCallback 4 1 wTracker wInput)).outcome) := rfl
  exact (C10_roles_only_for_live_servers (by decide) (by norm_num) h ho).2.2.2.1

theorem foldMin_le_init (a : Int) (vs : List Int) :
    vs.foldl (fun acc v => if v < acc then v else acc) a ≤ a := by
  induction vs generalizing a with
  | nil => exact le_refl a
  | cons v tl ih =>
    rw [List.foldl_cons]
    by_cases hv : v < a
    · rw [if_pos hv]
      exact le_trans (ih v) (le_of_lt hv)
    · rw [if_neg hv]
      exact ih a

theorem foldMin_le_elem (a : Int) {vs : List Int} :
    ∀ v ∈ vs, vs.foldl (fun acc v => if v < acc then v else acc) a ≤ v := by
  induction vs generalizing a with
  | nil => intro v hv; simp at hv
  | cons w tl ih =>
    intro v hv
    rw [List.foldl_cons]
    rcases List.mem_cons.mp hv with h1 | h2
    · subst h1
      by_cases hw : v < a
      · rw [if_pos hw]
        exact foldMin_le_init v tl
      · rw [if_neg hw]
        push_neg at hw
        exact le_trans (foldMin_le_init a tl) hw
    · by_cases hw : w < a
      · rw [if_pos hw]
        exact ih w v h2
      · rw [if_neg hw]
        exact ih a v h2

theorem foldMin_mem_or (a : Int) (vs : List Int) :
    vs.foldl (fun acc v => if v < acc then v else acc) a = a ∨
      vs.foldl (fun acc v => if v < acc then v else acc) a ∈ vs := by
  induction vs generalizing a with
  | nil => exact Or.inl rfl
  | cons w tl ih =>
    rw [List.foldl_cons]
    by_cases hw : w < a
    · rw [if_pos hw]
      rcases ih w with h | h
      · rw [h]
        exact Or.inr (List.mem_cons_self _ _)
      · exact Or.inr (List.mem_cons_of_mem _ h)
    · rw [if_neg hw]
      rcases ih a with h | h
      · exact Or.inl h
      · exact Or.inr (List.mem_cons_of_mem _ h)

theorem computeMinVersion_le {vs : List Int} : ∀ v ∈ vs, computeMinVersion vs ≤ v :=
  foldMin_le_elem _

theorem computeMinVersion_mem {vs : List Int} (hne : vs ≠ [])
    (hle : ∀ v ∈ vs, v ≤ 2 ^ 63 - 1) : computeMinVersion vs ∈ vs := by
  rcases foldMin_mem_or (2 ^ 63 - 1) vs with h | h
  · obtain ⟨v0, hv0⟩ := List.exists_mem_of_ne_nil vs hne
    have h1 := computeMinVersion_le v0 hv0
    have h2 := hle v0 hv0
    have : computeMinVersion vs = v0 := by
      unfold computeMinVersion at *
      omega
    exact this ▸ hv0
  · exact h

theorem pair_unique_of_keys_nodup {l : List (String × Int)} {k : String} {v v₂ : Int}
    (hnd : (l.map (fun p => p.1)).Nodup) (h1 : (k, v) ∈ l) (h2 : (k, v₂) ∈ l) :
    v = v₂ := by
  induction l with
  | nil => simp at h1
  | cons p tl ih =>
    rw [List.map_cons, List.nodup_cons] at hnd
    rcases List.mem_cons.mp h1 with e1 | m1
    · rcases List.mem_cons.mp h2 with e2 | m2
      · rw [← e1] at e2
        exact (Prod.mk.injEq _ _ _ _ ▸ e2 : _ ∧ _).2.symm
      · exfalso
        apply hnd.1
        rw [← e1]
        exact List.mem_map_of_mem (fun p => p.1) m2
    · rcases List.mem_cons.mp h2 with e2 | m2
      · exfalso
        apply hnd.1
        rw [← e2]
        exact List.mem_map_of_mem (fun p => p.1) m1
      · exact ih hnd.2 m1 m2

/-- C1.  The claim says the role follower retains the **two newest** versions
of its role-record window.  The source (sharder.go:890-893) sorts the decoded
versions ascending and keeps `versions[0:2]`: on the snapshot with versions
`{1, 2, 3}` it retains `[1, 2]` — the two **oldest** — not `[2, 3]` as the
claim and the spec's design note require.  (The ascending processing order of
the retained window does hold.)  This theorem evaluates the embedded window
computation at that failing input. -/
theorem C1_window_keeps_two_oldest_not_newest :
    fillRolesWindow [3, 1, 2] = [1, 2] ∧ fillRolesWindow [3, 1, 2] ≠ [2, 3] := by
  constructor
  · rfl
  · intro hc
    cases hc

/-- C7.  On every non-empty server-state snapshot, the frontend version
follower computes the minimum of all decoded acknowledged versions (seeded
with `math.MaxInt64`, so the sentinel `-1` wins if present) and invokes
`frontend.Version`/publishes on its channel exactly when that minimum strictly
exceeds its last-applied version, updating the tracked version to it. -/
theorem C7_frontend_version_follower
    {version : Int} {serverVersions : List Int}
    (hne : serverVersions ≠ [])
    (hle : ∀ v ∈ serverVersions, v ≤ 2 ^ 63 - 1) :
    (computeMinVersion serverVersions ∈ serverVersions ∧
      ∀ v ∈ serverVersions, computeMinVersion serverVersions ≤ v) ∧
    (version < computeMinVersion serverVersions →
      runFrontendStep version serverVersions =
        (computeMinVersion serverVersions, some (computeMinVersion serverVersions))) ∧
    (¬version < computeMinVersion serverVersions →
      runFrontendStep version serverVersions = (version, none)) := by
  have hlen : ¬(serverVersions.length = 0) := by
    intro hc
    exact hne (List.length_eq_zero.mp hc)
  refine ⟨⟨computeMinVersion_mem hne hle, computeMinVersion_le⟩, ?_, ?_⟩
  · intro hlt
    unfold runFrontendStep
    rw [if_neg hlen, if_pos hlt]
  · intro hlt
    unfold runFrontendStep
    rw [if_neg hlen, if_neg hlt]

/-- C6.  The assigner deletes a role record only when its version is strictly
below the minimum version acknowledged across all live server states, and only
in a callback whose blocking one-shot frontend wait terminated on a snapshot
in which every decoded frontend state has version at least that minimum; role
records with version at least the minimum are never deleted.  The last
conjunct identifies the gating value as the true minimum of the snapshot. -/
theorem C6_gc_deletes_only_acknowledged
    {oldMinVersion : Int} {serverVersions frontendVersions : List Int}
    {roleRecords : List (String × Int)}
    (hne : serverVersions ≠ [])
    (hle : ∀ v ∈ serverVersions, v ≤ 2 ^ 63 - 1)
    (hknd : (roleRecords.map (fun p => p.1)).Nodup) :
    (∀ k ∈ (gcStep oldMinVersion (computeMinVersion serverVersions) frontendVersions
        roleRecords).1,
      ∃ v, (k, v) ∈ roleRecords ∧ v < computeMinVersion serverVersions) ∧
    ((gcStep oldMinVersion (computeMinVersion serverVersions) frontendVersions
        roleRecords).1 ≠ [] →
      oldMinVersion < computeMinVersion serverVersions ∧
      ∀ fv ∈ frontendVersions, computeMinVersion serverVersions ≤ fv) ∧
    (∀ k v, (k, v) ∈ roleRecords → computeMinVersion serverVersions ≤ v →
      k ∉ (gcStep oldMinVersion (computeMinVersion serverVersions) frontendVersions
        roleRecords).1) ∧
    (computeMinVersion serverVersions ∈ serverVersions ∧
      ∀ v ∈ serverVersions, computeMinVersion serverVersions ≤ v) := by
  have hmemdel : ∀ k ∈ gcDeletedKeys (computeMinVersion serverVersions) roleRecords,
      ∃ v, (k, v) ∈ roleRecords ∧ v < computeMinVersion serverVersions := by
    intro k hk
    unfold gcDeletedKeys at hk
    obtain ⟨p, hp, he⟩ := List.mem_map.mp hk
    have hf := List.mem_filter.mp hp
    refine ⟨p.2, ?_, by simpa using hf.2⟩
    rw [← he]
    exact hf.1
  unfold gcStep
  by_cases h1 : oldMinVersion < computeMinVersion serverVersions
  · rw [if_pos h1]
    by_cases h2 : frontendGateDone (computeMinVersion serverVersions) frontendVersions = true
    · rw [if_pos h2]
      have hgate : ∀ fv ∈ frontendVersions, computeMinVersion serverVersions ≤ fv := by
        intro fv hfv
        have := List.all_eq_true.mp h2 fv hfv
        simpa using this
      refine ⟨hmemdel, fun _ => ⟨h1, hgate⟩, ?_, computeMinVersion_mem hne hle,
        computeMinVersion_le⟩
      intro k v hmem hge hk
      obtain ⟨v₂, hmem₂, hlt₂⟩ := hmemdel k hk
      have := pair_unique_of_keys_nodup hknd hmem hmem₂
      omega
    · rw [if_neg h2]
      exact ⟨fun k hk => absurd hk (List.not_mem_nil k),
        fun hc => absurd rfl hc,
        fun k v _ _ hk => absurd hk (List.not_mem_nil k),
        computeMinVersion_mem hne hle, computeMinVersion_le⟩
  · rw [if_neg h1]
    exact ⟨fun k hk => absurd hk (List.not_mem_nil k),
      fun hc => absurd rfl hc,
      fun k v _ _ hk => absurd hk (List.not_mem_nil k),
      computeMinVersion_mem hne hle, computeMinVersion_le⟩

/-- C8.  If the assigner's master pass or replica pass cannot place some shard
(including via swap) — i.e. the composed passes fail — the callback returns
without an error and publishes neither role records nor an addresses snapshot,
so the watch loop is not terminated. -/
theorem C8_assignment_failure_not_fatal
    {numShards numReplicas : Nat} {t : AssignTracker} {inp : AssignInput}
    (hfail : runPasses numShards numReplicas t inp.serverStates = none) :
    isOkNoPublish (assignRolesCallback numShards numReplicas t inp) := by
  unfold assignRolesCallback
  by_cases h0 : inp.serverStates.length = 0
  · rw [if_pos h0]
    rfl
  rw [if_neg h0]
  dsimp only
  by_cases hsame : sameServers t.oldServers (liveIdsOf inp.serverStates) = true
  · rw [if_pos hsame]
    rfl
  rw [if_neg hsame]
  rw [hfail]
  rfl

theorem C7_witness :
    runFrontendStep (-1) [0, 2, 1] =
      (computeMinVersion [0, 2, 1], some (computeMinVersion [0, 2, 1])) :=
  (C7_frontend_version_follower (by decide) (by decide)).2.1 (by decide)

theorem C6_witness :
    "k1" ∉ (gcStep 0 (computeMinVersion [2, 3]) [2, 5] [("k0", 0), ("k1", 2)]).1 :=
  (C6_gc_deletes_only_acknowledged (by decide) (by decide) (by decide)).2.2.1
    "k1" 2 (by decide) (by decide)

theorem C8_witness : isOkNoPublish (assignRolesCallback 1 1 wTracker w1Input) :=
  C8_assignment_failure_not_fatal rfl

theorem assignMaster_disjoint {rs : Roles} {m : Nat → Option String} {id : String}
    {shard q rem : Nat} {out : Roles × (Nat → Option String) × Nat}
    (h : assignMaster rs m id shard q rem = some out)
    (hD : rolesDisjoint rs) : rolesDisjoint out.1 := by
  obtain ⟨r, hl, -, -, h3, h4, hroles, -, -⟩ := assignMaster_some h
  rw [hroles]
  apply forall_mem_setRole
  · intro s hs
    show s ∉ r.replicas
    rcases List.mem_append.mp hs with h1 | h2
    · exact hD _ (lookupRole_mem hl) s h1
    · rw [List.mem_singleton] at h2
      rw [h2]
      exact h4
  · exact hD

theorem assignReplica_disjoint {rs : Roles} {m : Nat → Option String}
    {rep : Nat → List String} {id : String} {shard q rem : Nat}
    {out : Roles × (Nat → List String) × Nat}
    (h : assignReplica rs m rep id shard q rem = some out)
    (hD : rolesDisjoint rs) : rolesDisjoint out.1 := by
  obtain ⟨r, hl, -, -, h3, h4, hroles, -, -⟩ := assignReplica_some h
  rw [hroles]
  apply forall_mem_setRole
  · intro s hs
    show s ∉ r.replicas ++ [shard]
    intro hc
    rcases List.mem_append.mp hc with h1 | h2
    · exact hD _ (lookupRole_mem hl) s hs h1
    · rw [List.mem_singleton] at h2
      exact h3 (h2 ▸ hs)
  · exact hD

theorem swapReplica_disjoint {rs : Roles} {m : Nat → Option String}
    {rep : Nat → List String} {id : String} {shard q : Nat}
    {out : Roles × (Nat → List String)}
    (h : swapReplica rs m rep id shard q = some out)
    (hD : rolesDisjoint rs) : rolesDisjoint out.1 := by
  unfold swapReplica at h
  cases hl : lookupRole rs id with
  | none => rw [hl] at h; cases h
  | some serverRole =>
    rw [hl] at h
    dsimp only at h
    by_cases h1 : q ≤ serverRole.replicas.length
    · rw [if_pos h1] at h; cases h
    rw [if_neg h1] at h
    cases hf : findSwap serverRole id shard rs with
    | none => rw [hf] at h; cases h
    | some res =>
      rw [hf] at h
      obtain ⟨swapID, swapRole, swapShard⟩ := res
      dsimp only at h
      obtain ⟨hmem, -, -, -, -⟩ := findSwap_some hf
      dsimp only at hmem
      have hD1 : rolesDisjoint (setRole rs swapID
          { swapRole with
            replicas := swapRole.replicas.filter (fun x => x ≠ swapShard) }) := by
        apply forall_mem_setRole
        · intro s hs hc
          exact hD _ hmem s hs (List.mem_of_mem_filter hc)
        · exact hD
      cases h2 : assignReplica (setRole rs swapID
          { swapRole with
            replicas := swapRole.replicas.filter (fun x => x ≠ swapShard) })
          m (removeReplica rep swapShard swapID) swapID shard (2 ^ 64 - 1) 0 with
      | some o2 =>
        rw [h2] at h
        obtain ⟨o2a, o2b, o2c⟩ := o2
        dsimp only at h
        have hD2 : rolesDisjoint o2a := assignReplica_disjoint h2 hD1
        cases h3 : assignReplica o2a m o2b id swapShard q o2c with
        | some o3 =>
          rw [h3] at h
          obtain ⟨o3a, o3b, o3c⟩ := o3
          dsimp only at h
          injection h with h4
          rw [← h4]
          exact assignReplica_disjoint h3 hD2
        | none =>
          rw [h3] at h
          dsimp only at h
          injection h with h4
          rw [← h4]
          exact hD2
      | none =>
        rw [h2] at h
        dsimp only at h
        cases h3 : assignReplica (setRole rs swapID
            { swapRole with
              replicas := swapRole.replicas.filter (fun x => x ≠ swapShard) })
            m (removeReplica rep swapShard swapID) id swapShard q 0 with
        | some o3 =>
          rw [h3] at h
          obtain ⟨o3a, o3b, o3c⟩ := o3
          dsimp only at h
          injection h with h4
          rw [← h4]
          exact assignReplica_disjoint h3 hD1
        | none =>
          rw [h3] at h
          dsimp only at h
          injection h with h4
          rw [← h4]
          exact hD1

theorem masterStep_disjoint {q : Nat} {cands : Nat → List String} {shard : Nat}
    {st st₂ : MState} (h : masterStep q cands shard st = some st₂)
    (hD : rolesDisjoint st.roles) : rolesDisjoint st₂.roles := by
  obtain ⟨id, -, he⟩ := tryMasterIds_some h
  exact assignMaster_disjoint he hD

theorem replicaStep_disjoint {q : Nat} {cands : Nat → List String}
    {live : List String} {shard : Nat} {st st₂ : RState}
    (h : replicaStep q cands live shard st = some st₂)
    (hD : rolesDisjoint st.roles) : rolesDisjoint st₂.roles := by
  rcases replicaStep_cases h with hcase | hcase
  · obtain ⟨-, id, -, he⟩ := tryReplicaIds_some hcase
    exact assignReplica_disjoint he hD
  · obtain ⟨-, -, id, -, he⟩ := trySwapIds_some hcase
    exact swapReplica_disjoint he hD

theorem runPasses_disjoint {numShards numReplicas : Nat} {t : AssignTracker}
    {ss : List ServerState} {st : RState}
    (h : runPasses numShards numReplicas t ss = some st) :
    rolesDisjoint st.roles := by
  obtain ⟨st₁, h₁, h₂⟩ := runPasses_some h
  have hinit : rolesDisjoint (initRoles t.version ss) := by
    intro p hp s hs
    rw [(mem_initRoles hp).1] at hs
    cases hs
  unfold masterPass at h₁
  have hd₁ : rolesDisjoint st₁.roles :=
    optFold_inv (f := masterStep (numShards / ss.length)
        (candidates t.oldMasters t.oldReplicas (shardLocationsOf ss) (liveIdsOf ss)))
      (I := fun s => rolesDisjoint s.roles)
      (fun a s s₂ hs hIs => masterStep_disjoint hs hIs) h₁ hinit
  unfold replicaPass at h₂
  exact optFold_inv (f := fun _ s => replicaRound ((numShards * numReplicas) / ss.length)
      (candidates t.oldMasters t.oldReplicas (shardLocationsOf ss) (liveIdsOf ss))
      (liveIdsOf ss) (List.range numShards) s)
    (I := fun s => rolesDisjoint s.roles)
    (fun a s s₂ hs hIs => by
      unfold replicaRound at hs
      exact optFold_inv (f := replicaStep ((numShards * numReplicas) / ss.length)
          (candidates t.oldMasters t.oldReplicas (shardLocationsOf ss) (liveIdsOf ss))
          (liveIdsOf ss))
        (I := fun s => rolesDisjoint s.roles)
        (fun a₂ s₃ s₄ hs₂ hIs₂ => replicaStep_disjoint hs₂ hIs₂) hs hIs) h₂ hd₁

/-- C4.  No shard ever appears simultaneously in the same server's masters and
replicas sets: each of `assignMaster`, `assignReplica` and `swapReplica`
preserves per-server disjointness, and every set of roles produced by the
passes of a successful publication satisfies it. -/
theorem C4_masters_replicas_disjoint
    {numShards numReplicas : Nat} {t : AssignTracker} {inp : AssignInput}
    {eff : CallbackEffects} {pub : Publication}
    (h : assignRolesCallback numShards numReplicas t inp = .ok eff)
    (ho : eff.outcome = .publish pub) :
    (∀ rs m id shard q rem (out : Roles × (Nat → Option String) × Nat),
      assignMaster rs m id shard q rem = some out →
      rolesDisjoint rs → rolesDisjoint out.1) ∧
    (∀ rs m rep id shard q rem (out : Roles × (Nat → List String) × Nat),
      assignReplica rs m rep id shard q rem = some out →
      rolesDisjoint rs → rolesDisjoint out.1) ∧
    (∀ rs m rep id shard q (out : Roles × (Nat → List String)),
      swapReplica rs m rep id shard q = some out →
      rolesDisjoint rs → rolesDisjoint out.1) ∧
    (∀ p ∈ pub.roles, ∀ s ∈ p.2.masters, s ∉ p.2.replicas) := by
  obtain ⟨-, st, hrp, hroles, -, -⟩ := callback_publish h ho
  refine ⟨fun rs m id shard q rem out he hD => assignMaster_disjoint he hD,
    fun rs m rep id shard q rem out he hD => assignReplica_disjoint he hD,
    fun rs m rep id shard q out he hD => swapReplica_disjoint he hD, ?_⟩
  rw [hroles]
  exact runPasses_disjoint hrp

theorem C4_witness :
    (0 : Nat) ∉
      (("a", (⟨"a", 0, [0, 1], [2, 3]⟩ : ServerRole)) : String × ServerRole).2.replicas := by
  have h : assignRolesCallback 4 1 wTracker wInput =
      .ok (effectsOf (assignRolesCallback 4 1 wTracker wInput)) := rfl
  have ho : (effectsOf (assignRolesCallback 4 1 wTracker wInput)).outcome =
      .publish (publicationOf
        (effectsOf (assignRolesCallback 4 1 wTracker wInput)).outcome) := rfl
  exact (C4_masters_replicas_disjoint h ho).2.2.2 _ (by decide) 0 (by decide)

theorem masterStep_sticky {q : Nat} {om : Nat → Option String} {orp loc : Nat → List String}
    {live : List String} {shard : Nat} {st : MState} {id : String} {r : ServerRole}
    (hom : om shard = some id)
    (hl : lookupRole st.roles id = some r)
    (hq : r.masters.length < q ∨ (r.masters.length = q ∧ 0 < st.rem))
    (hns : hasShard r shard = false) :
    ∃ st₂, masterStep q (candidates om orp loc live) shard st = some st₂ ∧
      ownsMasterShard st₂.roles id shard := by
  have hg1 : ¬(q < r.masters.length) := by omega
  have hg2 : ¬(r.masters.length = q ∧ st.rem = 0) := by
    intro hc
    rcases hq with h | h
    · omega
    · omega
  have hg3 : ¬(hasShard r shard = true) := by
    rw [hns]
    exact Bool.false_ne_true
  have hAM : assignMaster st.roles st.masters id shard q st.rem =
      some (setRole st.roles id { r with masters := setInsert r.masters shard },
            fun s => if s = shard then some id else st.masters s,
            if r.masters.length = q ∧ 0 < st.rem then st.rem - 1 else st.rem) := by
    unfold assignMaster
    rw [hl]
    dsimp only
    rw [if_neg hg1, if_neg hg2, if_neg hg3]
  have hcand : candidates om orp loc live shard =
      id :: (orp shard ++ loc shard ++ live) := by
    unfold candidates
    rw [hom]
    simp [Option.toList]
  refine ⟨⟨setRole st.roles id { r with masters := setInsert r.masters shard },
      fun s => if s = shard then some id else st.masters s,
      if r.masters.length = q ∧ 0 < st.rem then st.rem - 1 else st.rem⟩, ?_, ?_⟩
  · unfold masterStep
    rw [hcand]
    unfold tryMasterIds
    rw [hAM]
  · unfold ownsMasterShard
    have hkey : id ∈ keysOf st.roles := by
      have := lookupRole_mem hl
      simpa [keysOf] using List.mem_map_of_mem (fun p => p.1) this
    rw [lookupRole_setRole_self _ hkey]
    show shard ∈ setInsert r.masters shard
    unfold setInsert
    rw [hasShard_eq_false_iff] at hns
    rw [if_neg hns.1]
    exact List.mem_append.mpr (Or.inr (List.mem_singleton.mpr rfl))

theorem masterStep_owns_mono {q : Nat} {cands : Nat → List String} {shard : Nat}
    {st st₂ : MState} {id : String} {s : Nat}
    (h : masterStep q cands shard st = some st₂)
    (hown : ownsMasterShard st.roles id s) : ownsMasterShard st₂.roles id s := by
  obtain ⟨id₂, r₂, hl₂, -, -, -, -, hroles, -⟩ := masterStep_some h
  unfold ownsMasterShard at hown ⊢
  cases hl : lookupRole st.roles id with
  | none => rw [hl] at hown; exact hown.elim
  | some r =>
    rw [hl] at hown
    rw [hroles]
    by_cases he : id = id₂
    · subst he
      rw [hl] at hl₂
      injection hl₂ with h5
      have hkey : id ∈ keysOf st.roles := by
        simpa [keysOf] using List.mem_map_of_mem (fun p => p.1) (lookupRole_mem hl)
      rw [lookupRole_setRole_self _ hkey]
      show s ∈ r₂.masters ++ [shard]
      rw [← h5]
      exact List.mem_append.mpr (Or.inl hown)
    · rw [lookupRole_setRole_ne _ he, hl]
      exact hown

/-- C5.  In the assigner's master pass, for every shard `s` whose previous
master is a key of the roles map built from the snapshot, if, at the moment
the pass reaches `s`, that server holds fewer than the master quota of
masters, or exactly the quota with remainder budget left, and does not already
own `s` in either role, then `s`'s new master is the previous master: the
previous master is the first candidate tried and the conditions are exactly
`assignMaster`'s success conditions, and the granted master role persists to
the end of the pass. -/
theorem C5_master_stickiness
    {q : Nat} {om : Nat → Option String} {orp loc : Nat → List String}
    {live : List String} {st0 st stF : MState} {L₁ L₂ : List Nat} {N s : Nat}
    {id : String} {r : ServerRole}
    (hsplit : List.range N = L₁ ++ s :: L₂)
    (h₁ : masterPass q (candidates om orp loc live) L₁ st0 = some st)
    (hom : om s = some id)
    (hl : lookupRole st.roles id = some r)
    (hq : r.masters.length < q ∨ (r.masters.length = q ∧ 0 < st.rem))
    (hns : hasShard r s = false)
    (hfull : masterPass q (candidates om orp loc live) (List.range N) st0 = some stF) :
    ownsMasterShard stF.roles id s := by
  rw [hsplit] at hfull
  unfold masterPass at h₁ hfull
  rw [optFold_append, h₁, Option.some_bind, optFold_cons] at hfull
  obtain ⟨st₂, hstep, hown⟩ := @masterStep_sticky q om orp loc live s st id r
    hom hl hq hns
  rw [hstep] at hfull
  exact optFold_inv (f := masterStep q (candidates om orp loc live))
    (I := fun stx => ownsMasterShard stx.roles id s)
    (fun a s₃ s₄ hs hIs => masterStep_owns_mono hs hIs) hfull hown

theorem C5_witness :
    ownsMasterShard (mstateOf (masterPass 1 wCands (List.range 2) wSt0)).roles "b" 0 :=
  @C5_master_stickiness 1 wOm (fun _ => []) (fun _ => []) ["a", "b"] wSt0 wSt0
    (mstateOf (masterPass 1 wCands (List.range 2) wSt0)) [] [1] 2 0 "b"
    ⟨"b", 0, [], []⟩ (by decide) rfl rfl rfl (Or.inl (by decide)) rfl rfl

theorem lookupAddr_cons {p : Nat × ShardAddr} {tl : ShardAddrs} {s : Nat} :
    lookupAddr (p :: tl) s = if p.1 = s then some p.2 else lookupAddr tl s := by
  by_cases hp : p.1 = s
  · rw [if_pos hp]
    unfold lookupAddr
    rw [List.find?_cons_of_pos _ (by simpa using hp)]
    rfl
  · rw [if_neg hp]
    unfold lookupAddr
    rw [List.find?_cons_of_neg _ (by simpa using hp)]

theorem mem_setInsertStr {l : List String} {x a : String} :
    a ∈ setInsertStr l x ↔ a ∈ l ∨ a = x := by
  unfold setInsertStr
  by_cases hx : x ∈ l
  · rw [if_pos hx]
    constructor
    · exact Or.inl
    · intro hor
      rcases hor with h | h
      · exact h
      · exact h ▸ hx
  · rw [if_neg hx]
    rw [List.mem_append, List.mem_singleton]

theorem setInsertStr_idem (l : List String) (x : String) :
    setInsertStr (setInsertStr l x) x = setInsertStr l x := by
  unfold setInsertStr
  by_cases hx : x ∈ l
  · rw [if_pos hx, if_pos hx]
  · rw [if_neg hx, if_pos (List.mem_append.mpr (Or.inr (List.mem_singleton.mpr rfl)))]

theorem lookupAddr_setMasterAt {addrs : ShardAddrs} {s : Nat} {a : String} (s₂ : Nat) :
    lookupAddr (setMasterAt addrs s a) s₂ =
      if s₂ = s then (lookupAddr addrs s).map (fun e => { e with master := a })
      else lookupAddr addrs s₂ := by
  induction addrs with
  | nil =>
    by_cases he : s₂ = s
    · rw [if_pos he]
      rfl
    · rw [if_neg he]
      rfl
  | cons p tl ih =>
    show lookupAddr ((if p.1 = s then (p.1, { p.2 with master := a }) else p) ::
      (setMasterAt tl s a)) s₂ = _
    by_cases hp : p.1 = s <;> by_cases hq : s₂ = s
    · subst hq
      simp [lookupAddr_cons, hp]
    · have hps : ¬(p.1 = s₂) := by rw [hp]; exact fun hc => hq hc.symm
      have hss : ¬(s = s₂) := fun hc => hq hc.symm
      simp [lookupAddr_cons, hps, hq, hp, hss, ih]
    · subst hq
      simp [lookupAddr_cons, hp, ih]
    · by_cases hr : p.1 = s₂
      · simp [lookupAddr_cons, hr, hq, hp]
      · simp [lookupAddr_cons, hr, hq, hp, ih]

theorem lookupAddr_addReplicaAt {addrs : ShardAddrs} {s : Nat} {a : String} (s₂ : Nat) :
    lookupAddr (addReplicaAt addrs s a) s₂ =
      if s₂ = s then (lookupAddr addrs s).map
        (fun e => { e with replicas := setInsertStr e.replicas a })
      else lookupAddr addrs s₂ := by
  induction addrs with
  | nil =>
    by_cases he : s₂ = s
    · rw [if_pos he]
      rfl
    · rw [if_neg he]
      rfl
  | cons p tl ih =>
    show lookupAddr ((if p.1 = s then (p.1, { p.2 with
        replicas := setInsertStr p.2.replicas a }) else p) ::
      (addReplicaAt tl s a)) s₂ = _
    by_cases hp : p.1 = s <;> by_cases hq : s₂ = s
    · subst hq
      simp [lookupAddr_cons, hp]
    · have hps : ¬(p.1 = s₂) := by rw [hp]; exact fun hc => hq hc.symm
      have hss : ¬(s = s₂) := fun hc => hq hc.symm
      simp [lookupAddr_cons, hps, hq, hp, hss, ih]
    · subst hq
      simp [lookupAddr_cons, hp, ih]
    · by_cases hr : p.1 = s₂
      · simp [lookupAddr_cons, hr, hq, hp]
      · simp [lookupAddr_cons, hr, hq, hp, ih]

theorem foldSetMaster_lookup {a : String} (s : Nat) :
    ∀ (m : List Nat) (addrs : ShardAddrs),
      lookupAddr (m.foldl (fun acc s₂ => setMasterAt acc s₂ a) addrs) s =
        if s ∈ m then (lookupAddr addrs s).map (fun e => { e with master := a })
        else lookupAddr addrs s := by
  intro m
  induction m with
  | nil =>
    intro addrs
    simp
  | cons w tl ih =>
    intro addrs
    rw [List.foldl_cons, ih, lookupAddr_setMasterAt]
    cases he : lookupAddr addrs s with
    | none =>
      by_cases hw : s = w
      · subst hw
        by_cases hm : s ∈ tl <;> simp [hm, he]
      · by_cases hm : s ∈ tl <;> simp [hw, hm, he]
    | some e =>
      by_cases hw : s = w
      · subst hw
        by_cases hm : s ∈ tl <;> simp [hm, he]
      · by_cases hm : s ∈ tl <;> simp [hw, hm, he]

theorem foldAddReplica_lookup {a : String} (s : Nat) :
    ∀ (rl : List Nat) (addrs : ShardAddrs),
      lookupAddr (rl.foldl (fun acc s₂ => addReplicaAt acc s₂ a) addrs) s =
        if s ∈ rl then (lookupAddr addrs s).map
          (fun e => { e with replicas := setInsertStr e.replicas a })
        else lookupAddr addrs s := by
  intro rl
  induction rl with
  | nil =>
    intro addrs
    simp
  | cons w tl ih =>
    intro addrs
    rw [List.foldl_cons, ih, lookupAddr_addReplicaAt]
    cases he : lookupAddr addrs s with
    | none =>
      by_cases hw : s = w
      · subst hw
        by_cases hm : s ∈ tl <;> simp [hm, he]
      · by_cases hm : s ∈ tl <;> simp [hw, hm, he]
    | some e =>
      by_cases hw : s = w
      · subst hw
        by_cases hm : s ∈ tl <;> simp [hm, he, setInsertStr_idem]
      · by_cases hm : s ∈ tl <;> simp [hw, hm, he, setInsertStr_idem]

theorem applyRole_lookup {addrs : ShardAddrs} {b : String} {r : ServerRole}
    {s : Nat} {e : ShardAddr} (he : lookupAddr addrs s = some e) :
    lookupAddr (applyRoleAddresses addrs b r) s = some
      ⟨if s ∈ r.masters then b else e.master,
       if s ∈ r.replicas then setInsertStr e.replicas b else e.replicas⟩ := by
  unfold applyRoleAddresses
  rw [foldAddReplica_lookup, foldSetMaster_lookup, he]
  by_cases hm : s ∈ r.masters <;> by_cases hr : s ∈ r.replicas
  · rw [if_pos hm, if_pos hr, if_pos hm, if_pos hr]
    rfl
  · rw [if_pos hm, if_neg hr, if_pos hm, if_neg hr]
    rfl
  · rw [if_neg hm, if_pos hr, if_neg hm, if_pos hr]
    rfl
  · rw [if_neg hm, if_neg hr, if_neg hm, if_neg hr]

theorem buildFold_effect {f : String → String} {s : Nat} :
    ∀ (L : Roles) (addrs : ShardAddrs) (e : ShardAddr),
      lookupAddr addrs s = some e →
      ∃ e₂, lookupAddr (L.foldl
          (fun acc p => applyRoleAddresses acc (f p.1) p.2) addrs) s = some e₂ ∧
        ((∀ p ∈ L, s ∉ p.2.masters) → e₂.master = e.master) ∧
        (∀ p ∈ L, s ∈ p.2.masters →
          L.countP (fun p₂ => decide (s ∈ p₂.2.masters)) = 1 →
          e₂.master = f p.1) ∧
        (∀ a, a ∈ e₂.replicas ↔ a ∈ e.replicas ∨
          ∃ p, p ∈ L ∧ s ∈ p.2.replicas ∧ f p.1 = a) := by
  intro L
  induction L with
  | nil =>
    intro addrs e he
    refine ⟨e, he, fun _ => rfl, fun p hp => absurd hp (List.not_mem_nil p), ?_⟩
    intro a
    constructor
    · exact Or.inl
    · intro hor
      rcases hor with h | ⟨p, hp, -, -⟩
      · exact h
      · exact absurd hp (List.not_mem_nil p)
  | cons p₀ rest ih =>
    intro addrs e he
    have he₁ := applyRole_lookup (b := f p₀.1) (r := p₀.2) he
    rw [List.foldl_cons]
    obtain ⟨e₂, hl₂, hA, hB, hC⟩ := ih (applyRoleAddresses addrs (f p₀.1) p₀.2) _ he₁
    refine ⟨e₂, hl₂, ?_, ?_, ?_⟩
    · intro hno
      have h₀ : s ∉ p₀.2.masters := hno p₀ (List.mem_cons_self _ _)
      have := hA (fun p hp => hno p (List.mem_cons_of_mem _ hp))
      rw [this]
      show (⟨if s ∈ p₀.2.masters then f p₀.1 else e.master, _⟩ : ShardAddr).master =
        e.master
      rw [if_neg h₀]
    · intro p hp hpm hcnt
      rw [List.countP_cons] at hcnt
      by_cases h₀ : s ∈ p₀.2.masters
      · rw [if_pos (by simpa using h₀)] at hcnt
        have hrest0 : rest.countP (fun p₂ => decide (s ∈ p₂.2.masters)) = 0 := by omega
        have hnone : ∀ p₂ ∈ rest, s ∉ p₂.2.masters := by
          intro p₂ hp₂ hc
          have := List.countP_eq_zero.mp hrest0 p₂ hp₂
          simp at this
          exact this hc
        have hmeq := hA hnone
        rcases List.mem_cons.mp hp with h1 | h2
        · rw [hmeq]
          show (⟨if s ∈ p₀.2.masters then f p₀.1 else e.master, _⟩ : ShardAddr).master =
            f p.1
          rw [if_pos h₀, h1]
        · exact absurd hpm (hnone p h2)
      · rw [if_neg (by simpa using h₀)] at hcnt
        rcases List.mem_cons.mp hp with h1 | h2
        · exact absurd (h1 ▸ hpm : s ∈ p₀.2.masters) h₀
        · exact hB p h2 hpm (by omega)
    · intro a
      rw [hC a]
      constructor
      · intro hor
        rcases hor with h | ⟨p, hp, hsp, hap⟩
        · by_cases h₀ : s ∈ p₀.2.replicas
          · have : a ∈ setInsertStr e.replicas (f p₀.1) ∨ False := by
              left
              show a ∈ setInsertStr e.replicas (f p₀.1)
              have he2 : (⟨if s ∈ p₀.2.masters then f p₀.1 else e.master,
                  if s ∈ p₀.2.replicas then setInsertStr e.replicas (f p₀.1)
                  else e.replicas⟩ : ShardAddr).replicas =
                  setInsertStr e.replicas (f p₀.1) := by
                rw [if_pos h₀]
              rw [← he2]
              exact h
            rcases mem_setInsertStr.mp (this.elim (fun x => x) False.elim) with h1 | h1
            · exact Or.inl h1
            · exact Or.inr ⟨p₀, List.mem_cons_self _ _, h₀, h1.symm⟩
          · have he2 : (⟨if s ∈ p₀.2.masters then f p₀.1 else e.master,
                if s ∈ p₀.2.replicas then setInsertStr e.replicas (f p₀.1)
                else e.replicas⟩ : ShardAddr).replicas = e.replicas := by
              rw [if_neg h₀]
            rw [he2] at h
            exact Or.inl h
        · exact Or.inr ⟨p, List.mem_cons_of_mem _ hp, hsp, hap⟩
      · intro hor
        rcases hor with h | ⟨p, hp, hsp, hap⟩
        · left
          show a ∈ (⟨_, if s ∈ p₀.2.replicas then setInsertStr e.replicas (f p₀.1)
            else e.replicas⟩ : ShardAddr).replicas
          by_cases h₀ : s ∈ p₀.2.replicas
          · rw [if_pos h₀]
            exact mem_setInsertStr.mpr (Or.inl h)
          · rw [if_neg h₀]
            exact h
        · rcases List.mem_cons.mp hp with h1 | h2
          · left
            show a ∈ (⟨_, if s ∈ p₀.2.replicas then setInsertStr e.replicas (f p₀.1)
              else e.replicas⟩ : ShardAddr).replicas
            rw [if_pos (h1 ▸ hsp : s ∈ p₀.2.replicas)]
            exact mem_setInsertStr.mpr (Or.inr ((h1 ▸ hap : f p₀.1 = a)).symm)
          · exact Or.inr ⟨p, h2, hsp, hap⟩

theorem lookupAddr_map_const {c : ShardAddr} {s : Nat} :
    ∀ {L : List Nat}, s ∈ L →
      lookupAddr (L.map (fun x => (x, c))) s = some c := by
  intro L
  induction L with
  | nil => intro h; simp at h
  | cons x tl ih =>
    intro h
    show lookupAddr ((x, c) :: tl.map (fun x => (x, c))) s = some c
    rw [lookupAddr_cons]
    by_cases hx : x = s
    · rw [if_pos hx]
    · rw [if_neg hx]
      rcases List.mem_cons.mp h with h1 | h2
      · exact absurd h1.symm hx
      · exact ih h2

/-- C9.  Every `Addresses` snapshot written by a successful assigner
publication has an entry for every shard in `[0, N)`; the entry's master is
the address of the server whose new role holds the shard as master, and its
replica set is exactly the set of addresses of the servers whose new roles
hold the shard as replica. -/
theorem C9_addresses_match_roles
    {numShards numReplicas : Nat} {t : AssignTracker} {inp : AssignInput}
    {eff : CallbackEffects} {pub : Publication} {s : Nat}
    (hnd : (liveIdsOf inp.serverStates).Nodup)
    (hw : numShards * numReplicas + 2 ≤ 2 ^ 64)
    (h : assignRolesCallback numShards numReplicas t inp = .ok eff)
    (ho : eff.outcome = .publish pub)
    (hs : s < numShards) :
    (lookupAddr pub.addresses s).isSome = true ∧
    (∀ p ∈ pub.roles, s ∈ p.2.masters →
      addrMasterAt pub.addresses s = some (addrOfState inp.serverStates p.1)) ∧
    (∀ a, a ∈ addrReplicasAt pub.addresses s ↔
      ∃ p, p ∈ pub.roles ∧ s ∈ p.2.replicas ∧ addrOfState inp.serverStates p.1 = a) := by
  obtain ⟨hpos, st, hrp, hroles, haddrs, -⟩ := callback_publish h ho
  have hqr : (numShards * numReplicas) / inp.serverStates.length + 2 ≤ 2 ^ 64 := by
    have := Nat.div_le_self (numShards * numReplicas) inp.serverStates.length
    omega
  obtain ⟨-, hcount, -, -⟩ := runPasses_results hnd hpos hqr hrp
  have hc1 : masterShardCount st.roles s = 1 := by
    rw [hcount s, if_pos (List.mem_range.mpr hs)]
  have hinit : lookupAddr ((List.range numShards).map
      (fun s => (s, (⟨"", []⟩ : ShardAddr)))) s = some ⟨"", []⟩ :=
    lookupAddr_map_const (List.mem_range.mpr hs)
  obtain ⟨e₂, hl₂, -, hB, hC⟩ :=
    buildFold_effect (f := addrOfState inp.serverStates) st.roles _ _ hinit
  have haddr₂ : lookupAddr pub.addresses s = some e₂ := by
    rw [haddrs]
    unfold buildAddresses
    exact hl₂
  refine ⟨?_, ?_, ?_⟩
  · rw [haddr₂]
    rfl
  · intro p hp hpm
    unfold addrMasterAt
    rw [haddr₂]
    show some e₂.master = _
    rw [hroles] at hp
    rw [hB p hp hpm hc1]
  · intro a
    unfold addrReplicasAt
    rw [haddr₂]
    show a ∈ e₂.replicas ↔ _
    rw [hC a]
    constructor
    · intro hor
      rcases hor with hcontra | ⟨p, hp, hsp, hap⟩
      · exact absurd hcontra (List.not_mem_nil a)
      · exact ⟨p, hroles ▸ hp, hsp, hap⟩
    · intro hex
      obtain ⟨p, hp, hsp, hap⟩ := hex
      exact Or.inr ⟨p, hroles ▸ hp, hsp, hap⟩

theorem C9_witness :
    addrMasterAt (publicationOf
        (effectsOf (assignRolesCallback 4 1 wTracker wInput)).outcome).addresses 0 =
      some (addrOfState wInput.serverStates
        (("a", (⟨"a", 0, [0, 1], [2, 3]⟩ : ServerRole)) : String × ServerRole).1) := by
  have h : assignRolesCallback 4 1 wTracker wInput =
      .ok (effectsOf (assignRolesCallback 4 1 wTracker wInput)) := rfl
  have ho : (effectsOf (assignRolesCallback 4 1 wTracker wInput)).outcome =
      .publish (publicationOf
        (effectsOf (assignRolesCallback 4 1 wTracker wInput)).outcome) := rfl
  exact (C9_addresses_match_roles (by decide) (by norm_num) h ho (by norm_num)).2.1
    _ (by decide) (by decide)

end PachydermShard
